import Mathlib

/-!
Verification of the jsonyx C accelerator cores (`src/jsonyx/_speedups.c`, with
the duplicate-key logic of `src/jsonyx/_accelerator.c`) against its design
specification.  Texts are lists of Unicode code points; `PyUnicode_READ` is
modelled by `rd` (reads past the end return 0, every read in the source is
bounds-guarded).  Loops of the C code whose index strictly increases are
modelled by well-founded recursion; the mutually recursive scanner functions
carry an explicit `fuel` argument, with a distinct `nofuel` outcome so that a
fuel exhaustion is never confused with a result of the program.
-/

namespace Jsonyx

/-- A text: the sequence of Unicode code points of a Python `str`. -/
abbrev Text := List Nat

/-- `PyUnicode_READ(kind, str, i)`: every call in the source is guarded by a
bounds check, so reading past the end (which returns 0 here) never matters. -/
def rd (s : Text) (i : Nat) : Nat := s.getD i 0

/-- `PyUnicode_Substring(pystr, a, b)` / `_PyUnicodeWriter_WriteSubstring`. -/
def slice (s : Text) (a b : Nat) : Text := (s.drop a).take (b - a)

/-- The scanner configuration (`PyScannerObject` of `_speedups.c`).  The six
hooks are modelled at their default values (identity producers), which is the
configuration all claims below quantify over.  `uniIdent` is an oracle for
`PyUnicode_IsIdentifier`, whose Unicode tables are external to the source;
theorems about the scanner hold for every choice of this oracle. -/
structure ScanOpts where
  allow_comments : Bool
  allow_missing_commas : Bool
  allow_nan_and_infinity : Bool
  allow_surrogates : Bool
  allow_trailing_comma : Bool
  allow_unquoted_keys : Bool
  cache_keys : Bool
  uniIdent : Text → Bool

/-- A syntax diagnostic as passed to `raise_errmsg(msg, filename, s, start, end)`:
`start` and `endRaw` are the verbatim `Py_ssize_t` arguments of the C call
(`endRaw` may be non-positive: the library's `JSONSyntaxError` constructor
interprets such values relative to `start`, see `normEnd`). -/
structure Diag where
  msg : String
  start : Nat
  endRaw : Int
deriving Repr, DecidableEq

/-- Modelled from the spec: the diagnostic reporter exposes
`report(message, filename, source, start, end)` and a convenience
`report_at(..., start)` with `end = start`; start/end are code-point offsets
into `source`.  The `JSONSyntaxError` constructor that performs this
normalisation is outside the verified C sources (only its callers are), so a
non-positive raw `end` is normalised as the offset `start - end` clipped to
the source, per the spec's reporter interface. -/
def normEnd (len : Nat) (d : Diag) : Nat :=
  if d.endRaw ≤ 0 then min (d.start + (-d.endRaw).toNat) len else d.endRaw.toNat

/-- Outcome of a scanner routine: a value, a syntax diagnostic (`raise_errmsg`),
a non-syntax `ValueError` (`fatal`, raised only by defensive guards that are
unreachable from the scanner entry point), or exhaustion of the modelling
fuel (`nofuel`, an artifact of the embedding, distinct from every program
outcome). -/
inductive Res (α : Type) where
  | ok : α → Res α
  | err : Diag → Res α
  | fatal : Res α
  | nofuel : Res α
deriving Repr, DecidableEq

/-- Sequencing of scanner routines: errors, fatals and fuel exhaustion
propagate (the C propagates `NULL` results). -/
def Res.bind {α β : Type} : Res α → (α → Res β) → Res β
  | .ok a, f => f a
  | .err d, _ => .err d
  | .fatal, _ => .fatal
  | .nofuel, _ => .nofuel

@[simp] theorem Res.bind_ok {α β : Type} (a : α) (f : α → Res β) :
    Res.bind (.ok a) f = f a := rfl

@[simp] theorem Res.bind_err {α β : Type} (d : Diag) (f : α → Res β) :
    Res.bind (.err d) f = .err d := rfl

@[simp] theorem Res.bind_fatal {α β : Type} (f : α → Res β) :
    Res.bind .fatal f = .fatal := rfl

@[simp] theorem Res.bind_nofuel {α β : Type} (f : α → Res β) :
    Res.bind .nofuel f = .nofuel := rfl

/-- The error message of an outcome, if it is a syntax diagnostic. -/
def Res.errMsg {α : Type} : Res α → Option String
  | .err d => some d.msg
  | _ => none

/-- Case analysis for `Res.bind r f = .err d`. -/
theorem Res.bind_eq_err {α β : Type} {r : Res α} {f : α → Res β} {d : Diag}
    (h : Res.bind r f = .err d) :
    r = .err d ∨ ∃ a, r = .ok a ∧ f a = .err d := by
  cases r with
  | ok a => exact Or.inr ⟨a, rfl, h⟩
  | err d0 => cases h; exact Or.inl rfl
  | fatal => cases h
  | nofuel => cases h

/-- Case analysis for `Res.bind r f = .ok b`. -/
theorem Res.bind_eq_ok {α β : Type} {r : Res α} {f : α → Res β} {b : β}
    (h : Res.bind r f = .ok b) :
    ∃ a, r = .ok a ∧ f a = .ok b := by
  cases r with
  | ok a => exact ⟨a, rfl, h⟩
  | err d0 => cases h
  | fatal => cases h
  | nofuel => cases h

/-! ### Whitespace and comment skipping (`_skip_comments`, `_speedups.c` 106-156) -/

/-- Whitespace per the scanner: space, tab, LF, CR. -/
def isWs (c : Nat) : Bool := c = 32 || c = 9 || c = 10 || c = 13

/-- The scan `while (idx < len && str[idx] != '\n' && str[idx] != '\r') idx++`
of a `//` line comment: first index at or after `i` holding LF or CR, or the
length. -/
def skipLineAux (s : Text) : Nat → Nat → Nat
  | i, 0 => i
  | i, gas + 1 =>
    if i < s.length then
      if rd s i = 10 ∨ rd s i = 13 then i else skipLineAux s (i + 1) gas
    else i

def skipLine (s : Text) (i : Nat) : Nat := skipLineAux s i (s.length - i)

/-- The `/* ... */` terminator scan: index of the `*` of the first `*/` at or
after `i`, or `none` when the loop reaches `idx + 1 >= len`. -/
def findBlockEndAux (s : Text) : Nat → Nat → Option Nat
  | _, 0 => none
  | i, gas + 1 =>
    if i + 1 < s.length then
      if rd s i = 42 ∧ rd s (i + 1) = 47 then some i else findBlockEndAux s (i + 1) gas
    else none

def findBlockEnd (s : Text) (i : Nat) : Option Nat := findBlockEndAux s i (s.length - i)

/-- `_skip_comments` (`_speedups.c` 106-156).  Each iteration of the C `while`
consumes one whitespace character or one whole comment; after consuming a
comment it raises "Comments are not allowed" over its extent unless
`allow_comments`; an unterminated block comment is reported from inside the
terminator scan, with the message depending on `allow_comments`. -/
def skip_comments (o : ScanOpts) (s : Text) : Nat → Nat → Res Nat
  | _, 0 => .nofuel
  | idx, fuel + 1 =>
    if idx < s.length then
      let c := rd s idx
      if isWs c then
        skip_comments o s (idx + 1) fuel
      else if idx + 1 < s.length ∧ c = 47 ∧ rd s (idx + 1) = 47 then
        let j := skipLine s (idx + 2)
        if o.allow_comments then skip_comments o s j fuel
        else .err ⟨"Comments are not allowed", idx, (j : Int)⟩
      else if idx + 1 < s.length ∧ c = 47 ∧ rd s (idx + 1) = 42 then
        match findBlockEnd s (idx + 2) with
        | none =>
          if o.allow_comments then .err ⟨"Unterminated comment", idx, (s.length : Int)⟩
          else .err ⟨"Comments are not allowed", idx, (s.length : Int)⟩
        | some k =>
          if o.allow_comments then skip_comments o s (k + 2) fuel
          else .err ⟨"Comments are not allowed", idx, ((k + 2 : Nat) : Int)⟩
      else .ok idx
    else .ok idx

/-! ### String unescape (`scanstring_unicode`, `_speedups.c` 389-581) -/

/-- The characters the chunk scan of `scanstring_unicode` stops at: the closing
quote, a backslash, or a control character (the latter is reported from inside
the loop). -/
def isSpecial (c : Nat) : Bool := c = 34 || c = 92 || c ≤ 31

/-- The chunk scan `for (next = end; next < len; next++)` of
`scanstring_unicode`: first index at or after `i` holding a quote, backslash or
control character, or the length. -/
def findSpecialAux (s : Text) : Nat → Nat → Nat
  | i, 0 => i
  | i, gas + 1 =>
    if i < s.length then
      if isSpecial (rd s i) then i else findSpecialAux s (i + 1) gas
    else i

def findSpecial (s : Text) (i : Nat) : Nat := findSpecialAux s i (s.length - i)

/-- One hex digit of a `\uXXXX` escape (the digit `switch` of
`scanstring_unicode`). -/
def hexVal (d : Nat) : Option Nat :=
  if 48 ≤ d ∧ d ≤ 57 then some (d - 48)
  else if 97 ≤ d ∧ d ≤ 102 then some (d - 97 + 10)
  else if 65 ≤ d ∧ d ≤ 70 then some (d - 65 + 10)
  else none

/-- The four-round `c = (c << 4) | digit` loop decoding `\uXXXX` starting at
index `i`.  All four failure exits of the C loop raise one and the same
diagnostic, so which digit failed is not observable. -/
def hex4 (s : Text) (i : Nat) : Option Nat :=
  match hexVal (rd s i), hexVal (rd s (i + 1)), hexVal (rd s (i + 2)), hexVal (rd s (i + 3)) with
  | some a, some b, some c, some d => some (((a * 16 + b) * 16 + c) * 16 + d)
  | _, _, _, _ => none

/-- `Py_UNICODE_IS_HIGH_SURROGATE`. -/
def isHigh (c : Nat) : Bool := 0xD800 ≤ c ∧ c ≤ 0xDBFF

/-- `Py_UNICODE_IS_LOW_SURROGATE`. -/
def isLow (c : Nat) : Bool := 0xDC00 ≤ c ∧ c ≤ 0xDFFF

/-- `Py_UNICODE_JOIN_SURROGATES(hi, lo) = (((hi & 0x3FF) << 10) | (lo & 0x3FF)) + 0x10000`
(for code points the masking is the shown modulus). -/
def joinSurrogates (hi lo : Nat) : Nat := (hi % 0x400) * 0x400 + lo % 0x400 + 0x10000

/-- The loop of `scanstring_unicode`: `bgn` is the index of the opening quote,
`pos` the current read position, `acc` the decoded prefix (the C writer; the
no-copy fast path for escape-free strings and the skipping of empty chunk
writes return the same text and are collapsed here). -/
def scanstring_loop (o : ScanOpts) (s : Text) (bgn : Nat) : Nat → Text → Nat → Res (Text × Nat)
  | _, _, 0 => .nofuel
  | pos, acc, fuel + 1 =>
    let next := findSpecial s pos
    let c := rd s next
    if next < s.length ∧ c ≤ 31 then
      if c = 10 ∨ c = 13 then .err ⟨"Unterminated string", bgn, (next : Int)⟩
      else .err ⟨"Unescaped control character", next, ((next + 1 : Nat) : Int)⟩
    else if ¬ (next < s.length) ∨ (c ≠ 34 ∧ c ≠ 92) then
      .err ⟨"Unterminated string", bgn, (next : Int)⟩
    else
      let acc := acc ++ slice s pos next
      if c = 34 then .ok (acc, next + 1)
      else
        -- c = 92: a backslash escape
        let p := next + 1
        if p = s.length then .err ⟨"Expecting escaped character", p, 0⟩
        else
          let e := rd s p
          if e ≠ 117 then
            if e = 34 ∨ e = 92 ∨ e = 47 then scanstring_loop o s bgn (p + 1) (acc ++ [e]) fuel
            else if e = 98 then scanstring_loop o s bgn (p + 1) (acc ++ [8]) fuel
            else if e = 102 then scanstring_loop o s bgn (p + 1) (acc ++ [12]) fuel
            else if e = 110 then scanstring_loop o s bgn (p + 1) (acc ++ [10]) fuel
            else if e = 114 then scanstring_loop o s bgn (p + 1) (acc ++ [13]) fuel
            else if e = 116 then scanstring_loop o s bgn (p + 1) (acc ++ [9]) fuel
            else if e = 10 ∨ e = 13 then .err ⟨"Expecting escaped character", p, 0⟩
            else .err ⟨"Invalid backslash escape", p - 1, ((p + 1 : Nat) : Int)⟩
          else
            let hpos := p + 1
            let e2 := hpos + 4
            if e2 > s.length then .err ⟨"Expecting 4 hex digits", hpos, -4⟩
            else match hex4 s hpos with
            | none => .err ⟨"Expecting 4 hex digits", e2 - 4, -4⟩
            | some c1 =>
              if isHigh c1 then
                if e2 + 2 < s.length ∧ rd s e2 = 92 ∧ rd s (e2 + 1) = 117 then
                  if e2 + 6 > s.length then .err ⟨"Expecting 4 hex digits", e2 + 2, -4⟩
                  else match hex4 s (e2 + 2) with
                  | none => .err ⟨"Expecting 4 hex digits", e2 + 2, -4⟩
                  | some c2 =>
                    if isLow c2 then
                      scanstring_loop o s bgn (e2 + 6) (acc ++ [joinSurrogates c1 c2]) fuel
                    else if ¬ o.allow_surrogates then
                      .err ⟨"Surrogates are not allowed", e2 - 6, (e2 : Int)⟩
                    else scanstring_loop o s bgn e2 (acc ++ [c1]) fuel
                else if ¬ o.allow_surrogates then
                  .err ⟨"Surrogates are not allowed", e2 - 6, (e2 : Int)⟩
                else scanstring_loop o s bgn e2 (acc ++ [c1]) fuel
              else if isLow c1 ∧ ¬ o.allow_surrogates then
                .err ⟨"Surrogates are not allowed", e2 - 6, (e2 : Int)⟩
              else scanstring_loop o s bgn e2 (acc ++ [c1]) fuel

/-- `scanstring_unicode`: `end0` is the index right after the opening quote;
on success returns the decoded text and the index right after the closing
quote.  The `str_hook` is its default (`str`), an identity.  The defensive
`end is out of bounds` guard raises a plain `ValueError` (`fatal`); internal
callers always pass `end0 ≤ len`. -/
def scanstring (o : ScanOpts) (s : Text) (end0 : Nat) (fuel : Nat) : Res (Text × Nat) :=
  if end0 > s.length then .fatal
  else scanstring_loop o s (end0 - 1) end0 [] fuel

/-! ### The number matcher (`_match_number_unicode`, `_speedups.c` 898-954) -/

/-- ASCII decimal digit. -/
def isDigit (c : Nat) : Bool := 48 ≤ c ∧ c ≤ 57

/-- `while (idx < len && isdigit(str[idx])) idx++`. -/
def skipDigitsAux (s : Text) : Nat → Nat → Nat
  | i, 0 => i
  | i, gas + 1 =>
    if i < s.length then
      if isDigit (rd s i) then skipDigitsAux s (i + 1) gas else i
    else i

def skipDigits (s : Text) (i : Nat) : Nat := skipDigitsAux s i (s.length - i)

/-- The exponent stage of `_match_number_unicode` (lines 933-950): attempt
`[eE]`, an optional sign, a digit run; if the character before the final
cursor is not a digit, backtrack to before the `e`. -/
def match_exp (s : Text) (i : Nat) (isf : Bool) : Nat × Bool :=
  if i + 1 < s.length ∧ (rd s i = 101 ∨ rd s i = 69) then
    let j0 := i + 1
    let j1 := if j0 + 1 < s.length ∧ (rd s j0 = 45 ∨ rd s j0 = 43) then j0 + 1 else j0
    let j2 := skipDigits s j1
    if isDigit (rd s (j2 - 1)) then (j2, true) else (i, isf)
  else (i, isf)

/-- The fraction stage of `_match_number_unicode` (lines 926-930): consume
`.` only when a digit immediately follows. -/
def match_frac (s : Text) (i : Nat) : Nat × Bool :=
  if i + 1 < s.length ∧ rd s i = 46 ∧ isDigit (rd s (i + 1)) then
    (skipDigits s (i + 2), true)
  else (i, false)

/-- `_match_number_unicode`: `none` models the `-1` return ("no number
here"), otherwise the final cursor and the `is_float` flag. -/
def match_number (s : Text) (start : Nat) : Option (Nat × Bool) :=
  let i1 := if rd s start = 45 then start + 1 else start
  if rd s start = 45 ∧ s.length ≤ i1 then none
  else if 49 ≤ rd s i1 ∧ rd s i1 ≤ 57 then
    let j := skipDigits s (i1 + 1)
    let (k, f1) := match_frac s j
    let (m, f2) := match_exp s k f1
    some (m, f2)
  else if rd s i1 = 48 then
    let (k, f1) := match_frac s (i1 + 1)
    let (m, f2) := match_exp s k f1
    some (m, f2)
  else none

/-- Spec §4.3, integer part: `0` alone, or `[1-9][0-9]*`; anything else is no
number. -/
def spec_int (s : Text) (i : Nat) : Option Nat :=
  if rd s i = 48 then some (i + 1)
  else if 49 ≤ rd s i ∧ rd s i ≤ 57 then some (skipDigits s (i + 1))
  else none

/-- Spec §4.3, fraction: `.[0-9]+`, not consumed unless a digit follows the
dot; the flag tells whether it was consumed. -/
def spec_frac (s : Text) (j : Nat) : Nat × Bool :=
  if rd s j = 46 ∧ isDigit (rd s (j + 1)) then (skipDigits s (j + 2), true)
  else (j, false)

/-- Spec §4.3, exponent: `[eE][+-]?[0-9]+`, backtracking entirely when no
digit follows; the flag tells whether it was consumed. -/
def spec_exp (s : Text) (k : Nat) : Nat × Bool :=
  if rd s k = 101 ∨ rd s k = 69 then
    let j1 := if rd s (k + 1) = 45 ∨ rd s (k + 1) = 43 then k + 2 else k + 1
    if isDigit (rd s j1) then (skipDigits s j1, true) else (k, false)
  else (k, false)

/-- The number grammar exactly as the specification words it (§4.3): optional
`-`, then integer, optional fraction, optional exponent; `is_float` is true
iff a fraction or an exponent was consumed. -/
def match_number_spec (s : Text) (start : Nat) : Option (Nat × Bool) :=
  let i := if rd s start = 45 then start + 1 else start
  match spec_int s i with
  | none => none
  | some j =>
    let (k, f1) := spec_frac s j
    let (m, f2) := spec_exp s k
    some (m, f1 || f2)

/-! ### Basic reading lemmas -/

theorem rd_past {s : Text} {i : Nat} (h : s.length ≤ i) : rd s i = 0 := by
  simp [rd, List.getD, List.getElem?_eq_none h]

theorem isDigit_rd_lt {s : Text} {i : Nat} (h : isDigit (rd s i) = true) :
    i < s.length := by
  by_contra hc
  rw [rd_past (by omega)] at h
  simp [isDigit] at h

theorem skipDigitsAux_ge (s : Text) : ∀ gas i, i ≤ skipDigitsAux s i gas := by
  intro gas
  induction gas with
  | zero => intro i; exact le_refl i
  | succ gas ih =>
    intro i
    simp only [skipDigitsAux]
    by_cases h1 : i < s.length
    · simp only [if_pos h1]
      by_cases h2 : isDigit (rd s i) = true
      · simp only [if_pos h2]
        exact le_trans (by omega) (ih (i + 1))
      · simp only [if_neg h2]
        exact le_refl i
    · simp only [if_neg h1]
      exact le_refl i

theorem skipDigitsAux_le (s : Text) : ∀ gas i, i ≤ s.length →
    skipDigitsAux s i gas ≤ s.length := by
  intro gas
  induction gas with
  | zero => intro i h; exact h
  | succ gas ih =>
    intro i h
    simp only [skipDigitsAux]
    by_cases h1 : i < s.length
    · simp only [if_pos h1]
      by_cases h2 : isDigit (rd s i) = true
      · simp only [if_pos h2]
        exact ih (i + 1) (by omega)
      · simp only [if_neg h2]
        exact h
    · simp only [if_neg h1]
      exact h

theorem skipDigits_ge (s : Text) (i : Nat) : i ≤ skipDigits s i :=
  skipDigitsAux_ge s _ i

theorem skipDigits_le (s : Text) (i : Nat) (h : i ≤ s.length) :
    skipDigits s i ≤ s.length :=
  skipDigitsAux_le s _ i h

theorem skipDigitsAux_stop {s : Text} : ∀ gas {i}, isDigit (rd s i) = false →
    skipDigitsAux s i gas = i := by
  intro gas
  cases gas with
  | zero => intro i _; rfl
  | succ gas =>
    intro i h
    simp only [skipDigitsAux]
    by_cases h1 : i < s.length
    · simp only [if_pos h1, h, Bool.false_eq_true, if_false]
    · simp only [if_neg h1]

theorem skipDigits_stop {s : Text} {i : Nat} (h : isDigit (rd s i) = false) :
    skipDigits s i = i :=
  skipDigitsAux_stop _ h

theorem skipDigitsAux_last (s : Text) : ∀ gas i, s.length - i ≤ gas →
    isDigit (rd s i) = true →
    isDigit (rd s (skipDigitsAux s i gas - 1)) = true ∧ i < skipDigitsAux s i gas := by
  intro gas
  induction gas with
  | zero =>
    intro i hg h
    have := isDigit_rd_lt h
    omega
  | succ gas ih =>
    intro i hg h
    have hi : i < s.length := isDigit_rd_lt h
    simp only [skipDigitsAux, if_pos hi, if_pos h]
    by_cases h2 : isDigit (rd s (i + 1)) = true
    · have := ih (i + 1) (by omega) h2
      exact ⟨this.1, by omega⟩
    · rw [skipDigitsAux_stop gas (by simpa using h2)]
      simpa using h

theorem skipDigits_last {s : Text} {i : Nat} (h : isDigit (rd s i) = true) :
    isDigit (rd s (skipDigits s i - 1)) = true ∧ i < skipDigits s i :=
  skipDigitsAux_last s _ i (le_refl _) h

/-! ### C4: the number matcher agrees with the specified grammar -/

theorem isDigit_of_eq {c v : Nat} (h : c = v)
    (hv : isDigit v = false) : isDigit c = false := h ▸ hv

theorem match_frac_eq (s : Text) (j : Nat) : match_frac s j = spec_frac s j := by
  unfold match_frac spec_frac
  by_cases h : rd s j = 46 ∧ isDigit (rd s (j + 1)) = true
  · have hlt : j + 1 < s.length := isDigit_rd_lt h.2
    simp [h, hlt]
  · by_cases h1 : rd s j = 46
    · have h2 : ¬ isDigit (rd s (j + 1)) = true := fun hc => h ⟨h1, hc⟩
      simp [h1, h2]
    · simp [h1]

theorem match_exp_eq (s : Text) (k : Nat) (f : Bool) :
    match_exp s k f = ((spec_exp s k).1, f || (spec_exp s k).2) := by
  unfold match_exp spec_exp
  by_cases he : rd s k = 101 ∨ rd s k = 69
  · have hek : isDigit (rd s k) = false := by
      rcases he with h | h <;> exact isDigit_of_eq h (by decide)
    by_cases hk : k + 1 < s.length
    · simp only [if_pos (⟨hk, he⟩ : k + 1 < s.length ∧ _), if_pos he]
      by_cases hs : rd s (k + 1) = 45 ∨ rd s (k + 1) = 43
      · have hsd : isDigit (rd s (k + 1)) = false := by
          rcases hs with h | h <;> exact isDigit_of_eq h (by decide)
        by_cases hk2 : k + 1 + 1 < s.length
        · -- sign present and consumed by both sides
          simp only [if_pos (⟨hk2, hs⟩ : k + 1 + 1 < s.length ∧ _), if_pos hs,
            show k + 1 + 1 = k + 2 from by omega]
          by_cases hd : isDigit (rd s (k + 2)) = true
          · obtain ⟨h1, h2⟩ := skipDigits_last hd
            simp [hd, h1]
          · have hd' : isDigit (rd s (k + 2)) = false := by
              cases hx : isDigit (rd s (k + 2)) with
              | true => exact absurd hx hd
              | false => rfl
            rw [skipDigits_stop hd']
            have h21 : k + 2 - 1 = k + 1 := by omega
            simp [h21, hsd, hd']
        · -- sign is the last character: the C leaves it unconsumed and
          -- backtracks; the spec consumes it, finds no digit past the end,
          -- and also backtracks
          have h0 : rd s (k + 2) = 0 := rd_past (by omega)
          have hns : ¬ (k + 1 + 1 < s.length ∧ (rd s (k + 1) = 45 ∨ rd s (k + 1) = 43)) :=
            fun hc => hk2 hc.1
          simp only [if_neg hns, if_pos hs, show k + 1 + 1 = k + 2 from by omega]
          rw [skipDigits_stop hsd]
          have h11 : k + 1 - 1 = k := by omega
          simp [h11, hek, h0, show isDigit 0 = false from by decide]
      · -- no sign after the `e`
        have hns : ¬ (k + 1 + 1 < s.length ∧ (rd s (k + 1) = 45 ∨ rd s (k + 1) = 43)) :=
          fun hc => hs hc.2
        simp only [if_neg hns, if_neg hs]
        by_cases hd : isDigit (rd s (k + 1)) = true
        · obtain ⟨h1, h2⟩ := skipDigits_last hd
          simp [hd, h1]
        · have hd' : isDigit (rd s (k + 1)) = false := by
            cases hx : isDigit (rd s (k + 1)) with
            | true => exact absurd hx hd
            | false => rfl
          rw [skipDigits_stop hd']
          have h11 : k + 1 - 1 = k := by omega
          simp [h11, hek, hd']
    · -- the `e` is the last character: the C does not attempt the exponent;
      -- the spec attempts it, reads past the end, and backtracks
      have h1 : rd s (k + 1) = 0 := rd_past (by omega)
      have hng : ¬ (k + 1 < s.length ∧ (rd s k = 101 ∨ rd s k = 69)) := fun hc => hk hc.1
      simp only [if_neg hng, if_pos he, h1]
      simp [show ¬ ((0 : Nat) = 45 ∨ (0 : Nat) = 43) from by decide, h1,
        show isDigit 0 = false from by decide]
  · have hng : ¬ (k + 1 < s.length ∧ (rd s k = 101 ∨ rd s k = 69)) := fun hc => he hc.2
    simp only [if_neg hng, if_neg he]
    simp

/-- `_match_number_unicode` computes exactly the grammar the spec words
describe (shared lemma). -/
theorem match_number_agrees (s : Text) (start : Nat) :
    match_number s start = match_number_spec s start := by
  unfold match_number match_number_spec spec_int
  by_cases hsgn : rd s start = 45
  · by_cases hend : s.length ≤ start + 1
    · have h0 : rd s (start + 1) = 0 := rd_past hend
      simp [hsgn, hend, h0]
    · simp only [hsgn, hend, and_false, if_neg, not_false_iff, if_pos, and_true, true_and]
      by_cases h9 : 49 ≤ rd s (start + 1) ∧ rd s (start + 1) ≤ 57
      · have : rd s (start + 1) ≠ 48 := by omega
        simp [h9, this, match_frac_eq, match_exp_eq]
      · by_cases h0 : rd s (start + 1) = 48
        · simp [h9, h0, match_frac_eq, match_exp_eq]
        · simp [h9, h0]
  · simp only [hsgn, false_and, if_neg, not_false_iff]
    by_cases h9 : 49 ≤ rd s start ∧ rd s start ≤ 57
    · have : rd s start ≠ 48 := by omega
      simp [h9, this, match_frac_eq, match_exp_eq]
    · by_cases h0 : rd s start = 48
      · simp [h9, h0, match_frac_eq, match_exp_eq]
      · simp [h9, h0]

/-- C4.  For every text and tentative number start, `_match_number_unicode`
consumes a fraction `.` only when at least one digit follows it, consumes an
exponent `[eE][+-]?` only when at least one digit follows (otherwise it
backtracks entirely to before the `e`), and reports `is_float` true iff a
fraction or an exponent was consumed: it equals the reference grammar
`match_number_spec`, which has exactly these properties by construction. -/
theorem claimC4_number_matcher (s : Text) (start : Nat) :
    match_number s start = match_number_spec s start :=
  match_number_agrees s start

/-! ### The value tree and the recursive-descent scanner
(`scan_once_unicode`, `_parse_object_unicode`, `_parse_array_unicode`,
`_parse_number_unicode`, `scanner_call` of `_speedups.c`) -/

/-- The value tree built by the scanner with the default hooks.  A number
carries its `is_float` flag and the matched source slice (the conversions
`PyLong_FromString` / `PyFloat_FromString` cannot fail on a slice accepted by
the matcher, so keeping the slice is faithful and injective). -/
inductive JVal where
  | null
  | bool (b : Bool)
  | num (isFloat : Bool) (lit : Text)
  | nan
  | inf
  | neginf
  | str (t : Text)
  | arr (elems : List JVal)
  | obj (items : List (Text × JVal))
deriving Repr

/-- `PyDict_SetItem` on the insertion-ordered mapping: replace the value of an
existing equal key in place, else append. -/
def dictInsert (l : List (Text × JVal)) (k : Text) (v : JVal) : List (Text × JVal) :=
  match l with
  | [] => [(k, v)]
  | (k0, v0) :: t => if k0 = k then (k0, v) :: t else (k0, v0) :: dictInsert t k v

/-- `_parse_number_unicode` (956-1028) with the default `int`/`float` hooks. -/
def parse_number (s : Text) (start : Nat) : Res (JVal × Nat) :=
  match match_number s start with
  | none => .err ⟨"Expecting value", start, 0⟩
  | some (e, f) => .ok (.num f (slice s start e), e)

/-- `Py_UNICODE_ISALPHA` restricted to ASCII; the scanner consults it only on
code points ≤ 0x7F (larger ones pass the unquoted-key pre-checks
unconditionally). -/
def isAsciiAlpha (c : Nat) : Bool := (65 ≤ c ∧ c ≤ 90) ∨ (97 ≤ c ∧ c ≤ 122)

/-- Continuation test of an unquoted key:
`Py_UNICODE_ISALNUM(c) || c == '_' || c > 0x7f` (ASCII alnum suffices below
0x80). -/
def isIdentCont (c : Nat) : Bool := isDigit c || isAsciiAlpha c || c = 95 || 127 < c

/-- The unquoted-key scan of `_parse_object_unicode` (673-680). -/
def identEndAux (s : Text) : Nat → Nat → Nat
  | i, 0 => i
  | i, gas + 1 =>
    if i < s.length then
      if isIdentCont (rd s i) then identEndAux s (i + 1) gas else i
    else i

def identEnd (s : Text) (i : Nat) : Nat := identEndAux s i (s.length - i)

/-- Key reading of `_parse_object_unicode` (662-701): a string literal, or an
unquoted identifier subject to `PyUnicode_IsIdentifier` (the `uniIdent`
oracle) and `allow_unquoted_keys`.  The `cache_keys` memo replaces the key by
an equal stored text (storage sharing), a no-op at the level of values. -/
def read_key (o : ScanOpts) (s : Text) (idx : Nat) (fuel : Nat) : Res (Text × Nat) :=
  if rd s idx = 34 then scanstring o s (idx + 1) fuel
  else if ¬ isAsciiAlpha (rd s idx) ∧ rd s idx ≠ 95 ∧ rd s idx ≤ 127 then
    .err ⟨"Expecting key", idx, 0⟩
  else
    let nextIdx := identEnd s (idx + 1)
    let key := slice s idx nextIdx
    if ¬ o.uniIdent key then .err ⟨"Expecting key", idx, 0⟩
    else if ¬ o.allow_unquoted_keys then
      .err ⟨"Unquoted keys are not allowed", idx, (nextIdx : Int)⟩
    else .ok (key, nextIdx)

/-- The comma/close handling shared verbatim by `_parse_object_unicode`
(740-779) and `_parse_array_unicode` (841-880): from the position right after
an item, break at the closing bracket (`.inl close_idx`) or continue to the
next item (`.inr next_idx`).  In the missing-comma continue path the current
character is already known not to be the closing bracket, so the
trailing-comma check can only fire after an actual comma. -/
def item_tail (o : ScanOpts) (s : Text) (untermMsg : String) (openIdx : Nat)
    (close : Nat) (idx0 : Nat) (fuel : Nat) : Res (Nat ⊕ Nat) :=
  Res.bind (skip_comments o s idx0 fuel) fun idx =>
  if idx < s.length then
    if rd s idx = 44 then
      Res.bind (skip_comments o s (idx + 1) fuel) fun j =>
      if j < s.length ∧ rd s j = close then
        if o.allow_trailing_comma then .ok (.inl j)
        else .err ⟨"Trailing comma is not allowed", idx, ((idx + 1 : Nat) : Int)⟩
      else .ok (.inr j)
    else if rd s idx = close then .ok (.inl idx)
    else if idx = idx0 then .err ⟨"Expecting comma", idx0, 0⟩
    else if ¬ o.allow_missing_commas then
      .err ⟨"Missing commas are not allowed", idx0, 0⟩
    else .ok (.inr idx)
  else .err ⟨untermMsg, openIdx, (idx : Int)⟩

mutual

/-- `scan_once_unicode` (1030-1185).  `fuel` plays the role of the remaining
recursion budget: entering a container with none left yields the depth
diagnostic that `_Py_EnterRecursiveCall`'s failure is converted into. -/
def scan_once (o : ScanOpts) (s : Text) (idx : Nat) : Nat → Res (JVal × Nat)
  | 0 => .nofuel
  | fuel + 1 =>
    if idx < s.length then
      let c := rd s idx
      if c = 34 then
        Res.bind (scanstring o s (idx + 1) (fuel + 1)) fun r => .ok (.str r.1, r.2)
      else if c = 123 then
        if fuel = 0 then .err ⟨"Object is too deeply nested", idx, 0⟩
        else parse_object_body o s idx (idx + 1) fuel
      else if c = 91 then
        if fuel = 0 then .err ⟨"Array is too deeply nested", idx, 0⟩
        else parse_array_body o s idx (idx + 1) fuel
      else if c = 110 ∧ idx + 3 < s.length ∧ rd s (idx + 1) = 117 ∧
          rd s (idx + 2) = 108 ∧ rd s (idx + 3) = 108 then
        .ok (.null, idx + 4)
      else if c = 116 ∧ idx + 3 < s.length ∧ rd s (idx + 1) = 114 ∧
          rd s (idx + 2) = 117 ∧ rd s (idx + 3) = 101 then
        .ok (.bool true, idx + 4)
      else if c = 102 ∧ idx + 4 < s.length ∧ rd s (idx + 1) = 97 ∧
          rd s (idx + 2) = 108 ∧ rd s (idx + 3) = 115 ∧ rd s (idx + 4) = 101 then
        .ok (.bool false, idx + 5)
      else if c = 78 ∧ idx + 2 < s.length ∧ rd s (idx + 1) = 97 ∧
          rd s (idx + 2) = 78 then
        if ¬ o.allow_nan_and_infinity then
          .err ⟨"NaN is not allowed", idx, ((idx + 3 : Nat) : Int)⟩
        else .ok (.nan, idx + 3)
      else if c = 73 ∧ idx + 7 < s.length ∧ rd s (idx + 1) = 110 ∧
          rd s (idx + 2) = 102 ∧ rd s (idx + 3) = 105 ∧ rd s (idx + 4) = 110 ∧
          rd s (idx + 5) = 105 ∧ rd s (idx + 6) = 116 ∧ rd s (idx + 7) = 121 then
        if ¬ o.allow_nan_and_infinity then
          .err ⟨"Infinity is not allowed", idx, ((idx + 8 : Nat) : Int)⟩
        else .ok (.inf, idx + 8)
      else if c = 45 ∧ idx + 8 < s.length ∧ rd s (idx + 1) = 73 ∧
          rd s (idx + 2) = 110 ∧ rd s (idx + 3) = 102 ∧ rd s (idx + 4) = 105 ∧
          rd s (idx + 5) = 110 ∧ rd s (idx + 6) = 105 ∧ rd s (idx + 7) = 116 ∧
          rd s (idx + 8) = 121 then
        if ¬ o.allow_nan_and_infinity then
          .err ⟨"-Infinity is not allowed", idx, ((idx + 9 : Nat) : Int)⟩
        else .ok (.neginf, idx + 9)
      else parse_number s idx
    else .err ⟨"Expecting value", idx, 0⟩
termination_by structural fuel => fuel

/-- `_parse_object_unicode` (621-798), entry: skip comments after `{`, fast
path for the empty object, otherwise the item loop. -/
def parse_object_body (o : ScanOpts) (s : Text) (objIdx idx : Nat) : Nat → Res (JVal × Nat)
  | 0 => .nofuel
  | fuel + 1 =>
    Res.bind (skip_comments o s idx (fuel + 1)) fun i1 =>
    if i1 < s.length ∧ rd s i1 = 125 then .ok (.obj [], i1 + 1)
    else parse_object_items o s objIdx i1 [] fuel
termination_by structural fuel => fuel

/-- One iteration of the item loop of `_parse_object_unicode`: key, colon,
value, then the shared comma/close handling. -/
def parse_object_items (o : ScanOpts) (s : Text) (objIdx idx : Nat)
    (acc : List (Text × JVal)) : Nat → Res (JVal × Nat)
  | 0 => .nofuel
  | fuel + 1 =>
    if idx < s.length then
      Res.bind (read_key o s idx (fuel + 1)) fun kr =>
      Res.bind (skip_comments o s kr.2 (fuel + 1)) fun i2 =>
      if i2 < s.length ∧ rd s i2 = 58 then
        Res.bind (skip_comments o s (i2 + 1) (fuel + 1)) fun i3 =>
        Res.bind (scan_once o s i3 fuel) fun vn =>
        Res.bind (item_tail o s "Unterminated object" objIdx 125 vn.2 (fuel + 1)) fun
        | .inl closeIdx => .ok (.obj (dictInsert acc kr.1 vn.1), closeIdx + 1)
        | .inr contIdx =>
          parse_object_items o s objIdx contIdx (dictInsert acc kr.1 vn.1) fuel
      else .err ⟨"Expecting colon", kr.2, 0⟩
    else .err ⟨"Unterminated object", objIdx, (idx : Int)⟩
termination_by structural fuel => fuel

/-- `_parse_array_unicode` (800-896), entry. -/
def parse_array_body (o : ScanOpts) (s : Text) (arrIdx idx : Nat) : Nat → Res (JVal × Nat)
  | 0 => .nofuel
  | fuel + 1 =>
    Res.bind (skip_comments o s idx (fuel + 1)) fun i1 =>
    if i1 < s.length ∧ rd s i1 = 93 then .ok (.arr [], i1 + 1)
    else parse_array_items o s arrIdx i1 [] fuel
termination_by structural fuel => fuel

/-- One iteration of the item loop of `_parse_array_unicode`. -/
def parse_array_items (o : ScanOpts) (s : Text) (arrIdx idx : Nat)
    (acc : List JVal) : Nat → Res (JVal × Nat)
  | 0 => .nofuel
  | fuel + 1 =>
    if idx < s.length then
      Res.bind (scan_once o s idx fuel) fun vn =>
      Res.bind (item_tail o s "Unterminated array" arrIdx 93 vn.2 (fuel + 1)) fun
      | .inl closeIdx => .ok (.arr (acc ++ [vn.1]), closeIdx + 1)
      | .inr contIdx => parse_array_items o s arrIdx contIdx (acc ++ [vn.1]) fuel
    else .err ⟨"Unterminated array", arrIdx, (idx : Int)⟩
termination_by structural fuel => fuel

end

/-- `scanner_call` (1187-1240): BOM check, leading whitespace and comments,
one value, trailing whitespace and comments, end-of-file check. -/
def scanner_call (o : ScanOpts) (s : Text) (fuel : Nat) : Res JVal :=
  if 0 < s.length ∧ rd s 0 = 0xFEFF then .err ⟨"Unexpected UTF-8 BOM", 0, 1⟩
  else
    Res.bind (skip_comments o s 0 fuel) fun idx =>
    Res.bind (scan_once o s idx fuel) fun vn =>
    Res.bind (skip_comments o s vn.2 fuel) fun j =>
    if j < s.length then .err ⟨"Expecting end of file", j, 0⟩ else .ok vn.1

/-! ### Bounds of every diagnostic (towards C2) -/

/-- A raw diagnostic is in bounds: its start is an offset into the source,
and when its raw end is an absolute (positive) offset it is at least the
start and at most the length. -/
def DiagOK (len : Nat) (d : Diag) : Prop :=
  d.start ≤ len ∧ (0 < d.endRaw → (d.start : Int) ≤ d.endRaw ∧ d.endRaw ≤ (len : Int))

theorem DiagOK.mk {len st : Nat} {msg : String} {en : Int}
    (h1 : st ≤ len) (h2 : 0 < en → (st : Int) ≤ en ∧ en ≤ (len : Int)) :
    DiagOK len ⟨msg, st, en⟩ := ⟨h1, h2⟩

theorem DiagOK.norm {len : Nat} {d : Diag} (h : DiagOK len d) :
    d.start ≤ normEnd len d ∧ normEnd len d ≤ len := by
  obtain ⟨h1, h2⟩ := h
  unfold normEnd
  split
  next hle => constructor <;> omega
  next hgt =>
    obtain ⟨h3, h4⟩ := h2 (by omega)
    constructor <;> omega

theorem skipLineAux_ge (s : Text) : ∀ gas i, i ≤ skipLineAux s i gas := by
  intro gas
  induction gas with
  | zero => intro i; exact le_refl i
  | succ gas ih =>
    intro i
    simp only [skipLineAux]
    by_cases h1 : i < s.length
    · simp only [if_pos h1]
      by_cases h2 : rd s i = 10 ∨ rd s i = 13
      · simp only [if_pos h2]
        exact le_refl i
      · simp only [if_neg h2]
        exact le_trans (by omega) (ih (i + 1))
    · simp only [if_neg h1]
      exact le_refl i

theorem skipLineAux_le (s : Text) : ∀ gas i, i ≤ s.length →
    skipLineAux s i gas ≤ s.length := by
  intro gas
  induction gas with
  | zero => intro i h; exact h
  | succ gas ih =>
    intro i h
    simp only [skipLineAux]
    by_cases h1 : i < s.length
    · simp only [if_pos h1]
      by_cases h2 : rd s i = 10 ∨ rd s i = 13
      · simp only [if_pos h2]
        exact h
      · simp only [if_neg h2]
        exact ih (i + 1) (by omega)
    · simp only [if_neg h1]
      exact h

theorem skipLine_ge (s : Text) (i : Nat) : i ≤ skipLine s i :=
  skipLineAux_ge s _ i

theorem skipLine_le (s : Text) (i : Nat) (h : i ≤ s.length) :
    skipLine s i ≤ s.length :=
  skipLineAux_le s _ i h

theorem findBlockEndAux_some {s : Text} : ∀ gas {i k},
    findBlockEndAux s i gas = some k → i ≤ k ∧ k + 1 < s.length := by
  intro gas
  induction gas with
  | zero => intro i k h; cases h
  | succ gas ih =>
    intro i k h
    simp only [findBlockEndAux] at h
    by_cases h1 : i + 1 < s.length
    · rw [if_pos h1] at h
      by_cases h2 : rd s i = 42 ∧ rd s (i + 1) = 47
      · rw [if_pos h2] at h
        cases h
        exact ⟨by omega, h1⟩
      · rw [if_neg h2] at h
        have := ih h
        exact ⟨by omega, this.2⟩
    · rw [if_neg h1] at h
      cases h

theorem findBlockEnd_some {s : Text} {i k : Nat} (h : findBlockEnd s i = some k) :
    i ≤ k ∧ k + 1 < s.length :=
  findBlockEndAux_some _ h

theorem findSpecialAux_ge (s : Text) : ∀ gas i, i ≤ findSpecialAux s i gas := by
  intro gas
  induction gas with
  | zero => intro i; exact le_refl i
  | succ gas ih =>
    intro i
    simp only [findSpecialAux]
    by_cases h1 : i < s.length
    · simp only [if_pos h1]
      by_cases h2 : isSpecial (rd s i) = true
      · simp only [if_pos h2]
        exact le_refl i
      · simp only [if_neg h2]
        exact le_trans (by omega) (ih (i + 1))
    · simp only [if_neg h1]
      exact le_refl i

theorem findSpecialAux_le (s : Text) : ∀ gas i, i ≤ s.length →
    findSpecialAux s i gas ≤ s.length := by
  intro gas
  induction gas with
  | zero => intro i h; exact h
  | succ gas ih =>
    intro i h
    simp only [findSpecialAux]
    by_cases h1 : i < s.length
    · simp only [if_pos h1]
      by_cases h2 : isSpecial (rd s i) = true
      · simp only [if_pos h2]
        exact h
      · simp only [if_neg h2]
        exact ih (i + 1) (by omega)
    · simp only [if_neg h1]
      exact h

theorem findSpecial_ge (s : Text) (i : Nat) : i ≤ findSpecial s i :=
  findSpecialAux_ge s _ i

theorem findSpecial_le (s : Text) (i : Nat) (h : i ≤ s.length) :
    findSpecial s i ≤ s.length :=
  findSpecialAux_le s _ i h

theorem identEndAux_ge (s : Text) : ∀ gas i, i ≤ identEndAux s i gas := by
  intro gas
  induction gas with
  | zero => intro i; exact le_refl i
  | succ gas ih =>
    intro i
    simp only [identEndAux]
    by_cases h1 : i < s.length
    · simp only [if_pos h1]
      by_cases h2 : isIdentCont (rd s i) = true
      · simp only [if_pos h2]
        exact le_trans (by omega) (ih (i + 1))
      · simp only [if_neg h2]
        exact le_refl i
    · simp only [if_neg h1]
      exact le_refl i

theorem identEndAux_le (s : Text) : ∀ gas i, i ≤ s.length →
    identEndAux s i gas ≤ s.length := by
  intro gas
  induction gas with
  | zero => intro i h; exact h
  | succ gas ih =>
    intro i h
    simp only [identEndAux]
    by_cases h1 : i < s.length
    · simp only [if_pos h1]
      by_cases h2 : isIdentCont (rd s i) = true
      · simp only [if_pos h2]
        exact ih (i + 1) (by omega)
      · simp only [if_neg h2]
        exact h
    · simp only [if_neg h1]
      exact h

theorem identEnd_ge (s : Text) (i : Nat) : i ≤ identEnd s i :=
  identEndAux_ge s _ i

theorem identEnd_le (s : Text) (i : Nat) (h : i ≤ s.length) :
    identEnd s i ≤ s.length :=
  identEndAux_le s _ i h

/-- What the bounds invariant asserts of a skip result: a success lands in
`[idx, len]`, a diagnostic is in bounds, and the artifacts say nothing. -/
def SkipOK (len idx : Nat) : Res Nat → Prop
  | .ok j => idx ≤ j ∧ j ≤ len
  | .err d => DiagOK len d
  | .fatal => True
  | .nofuel => True

theorem SkipOK.widen {len i i' : Nat} {r : Res Nat} (h : SkipOK len i' r)
    (hle : i ≤ i') : SkipOK len i r := by
  cases r <;> simp [SkipOK] at h ⊢ <;> try exact h
  omega

/-- Bounds of `_skip_comments`: from an in-range start, a successful skip
lands in range without moving backwards, and every diagnostic it raises is in
bounds. -/
theorem skip_comments_bounds (o : ScanOpts) (s : Text) :
    ∀ fuel idx, idx ≤ s.length →
      SkipOK s.length idx (skip_comments o s idx fuel) := by
  intro fuel
  induction fuel with
  | zero => intro idx _; simp [skip_comments, SkipOK]
  | succ fuel ih =>
    intro idx hidx
    rw [skip_comments]
    by_cases h1 : idx < s.length
    · simp only [if_pos h1]
      by_cases h2 : isWs (rd s idx) = true
      · simp only [h2, if_true]
        exact (ih (idx + 1) (by omega)).widen (by omega)
      · simp only [h2, if_false, Bool.false_eq_true]
        by_cases h3 : idx + 1 < s.length ∧ rd s idx = 47 ∧ rd s (idx + 1) = 47
        · simp only [if_pos h3]
          have hg := skipLine_ge s (idx + 2)
          have hl := skipLine_le s (idx + 2) (by omega)
          by_cases h4 : o.allow_comments = true
          · simp only [h4, if_true]
            exact (ih _ hl).widen (by omega)
          · simp only [h4, if_false, Bool.false_eq_true]
            exact DiagOK.mk (by omega) (fun _ => ⟨by omega, by omega⟩)
        · simp only [if_neg h3]
          by_cases h5 : idx + 1 < s.length ∧ rd s idx = 47 ∧ rd s (idx + 1) = 42
          · simp only [if_pos h5]
            cases hfb : findBlockEnd s (idx + 2) with
            | none =>
              by_cases h6 : o.allow_comments = true <;>
                simp only [h6, if_true, if_false, Bool.false_eq_true] <;>
                exact DiagOK.mk (by omega) (fun _ => ⟨by omega, by omega⟩)
            | some k =>
              obtain ⟨hk1, hk2⟩ := findBlockEnd_some hfb
              by_cases h6 : o.allow_comments = true
              · simp only [h6, if_true]
                exact (ih (k + 2) (by omega)).widen (by omega)
              · simp only [h6, if_false, Bool.false_eq_true]
                exact DiagOK.mk (by omega) (fun _ => ⟨by omega, by omega⟩)
          · simp only [if_neg h5]
            exact ⟨le_refl idx, hidx⟩
    · simp only [if_neg h1]
      exact ⟨le_refl idx, hidx⟩

/-- Bounds invariant for routines returning a value and a cursor: a success
lands strictly beyond `lo` and within the source, a diagnostic is in bounds. -/
def StepOK {α : Type} (len lo : Nat) : Res (α × Nat) → Prop
  | .ok r => lo < r.2 ∧ r.2 ≤ len
  | .err d => DiagOK len d
  | .fatal => True
  | .nofuel => True

theorem StepOK.mono {α : Type} {len lo lo' : Nat} {r : Res (α × Nat)}
    (h : StepOK len lo' r) (hle : lo ≤ lo') : StepOK len lo r := by
  cases r <;> simp [StepOK] at h ⊢ <;> try exact h
  omega

/-- Bounds of the `scanstring_unicode` loop: every diagnostic is in bounds and
a success ends within the source, strictly beyond the current position. -/
theorem scanstring_loop_bounds (o : ScanOpts) (s : Text) (bgn : Nat) :
    ∀ fuel pos acc, bgn ≤ pos → pos ≤ s.length →
      StepOK s.length pos (scanstring_loop o s bgn pos acc fuel) := by
  intro fuel
  induction fuel with
  | zero => intro pos acc _ _; rw [scanstring_loop]; trivial
  | succ fuel ih =>
    intro pos acc hb hp
    rw [scanstring_loop]
    have hnge := findSpecial_ge s pos
    have hnle := findSpecial_le s pos hp
    by_cases h1 : findSpecial s pos < s.length ∧ rd s (findSpecial s pos) ≤ 31
    · simp only [if_pos h1]
      by_cases h2 : rd s (findSpecial s pos) = 10 ∨ rd s (findSpecial s pos) = 13
      · simp only [if_pos h2]
        exact DiagOK.mk (by omega) (fun _ => ⟨by omega, by omega⟩)
      · simp only [if_neg h2]
        exact DiagOK.mk (by omega) (fun _ => ⟨by omega, by omega⟩)
    · simp only [if_neg h1]
      by_cases h3 : ¬ (findSpecial s pos < s.length) ∨
          (rd s (findSpecial s pos) ≠ 34 ∧ rd s (findSpecial s pos) ≠ 92)
      · simp only [if_pos h3]
        exact DiagOK.mk (by omega) (fun _ => ⟨by omega, by omega⟩)
      · simp only [if_neg h3]
        push_neg at h3
        obtain ⟨hlt, hqb⟩ := h3
        by_cases h4 : rd s (findSpecial s pos) = 34
        · simp only [if_pos h4]
          exact ⟨by omega, by omega⟩
        · simp only [if_neg h4]
          by_cases h5 : findSpecial s pos + 1 = s.length
          · simp only [if_pos h5]
            exact DiagOK.mk (by omega) (fun hgt => by omega)
          · simp only [if_neg h5]
            have hplt : findSpecial s pos + 1 < s.length := by omega
            by_cases h6 : rd s (findSpecial s pos + 1) ≠ 117
            · simp only [if_pos h6]
              -- the single-character escape switch
              by_cases c1 : rd s (findSpecial s pos + 1) = 34 ∨
                  rd s (findSpecial s pos + 1) = 92 ∨ rd s (findSpecial s pos + 1) = 47
              · simp only [if_pos c1]
                exact (ih _ _ (by omega) (by omega)).mono (by omega)
              · simp only [if_neg c1]
                by_cases c2 : rd s (findSpecial s pos + 1) = 98
                · simp only [if_pos c2]
                  exact (ih _ _ (by omega) (by omega)).mono (by omega)
                · simp only [if_neg c2]
                  by_cases c3 : rd s (findSpecial s pos + 1) = 102
                  · simp only [if_pos c3]
                    exact (ih _ _ (by omega) (by omega)).mono (by omega)
                  · simp only [if_neg c3]
                    by_cases c4 : rd s (findSpecial s pos + 1) = 110
                    · simp only [if_pos c4]
                      exact (ih _ _ (by omega) (by omega)).mono (by omega)
                    · simp only [if_neg c4]
                      by_cases c5 : rd s (findSpecial s pos + 1) = 114
                      · simp only [if_pos c5]
                        exact (ih _ _ (by omega) (by omega)).mono (by omega)
                      · simp only [if_neg c5]
                        by_cases c6 : rd s (findSpecial s pos + 1) = 116
                        · simp only [if_pos c6]
                          exact (ih _ _ (by omega) (by omega)).mono (by omega)
                        · simp only [if_neg c6]
                          by_cases c7 : rd s (findSpecial s pos + 1) = 10 ∨
                              rd s (findSpecial s pos + 1) = 13
                          · simp only [if_pos c7]
                            exact DiagOK.mk (by omega) (fun hgt => by omega)
                          · simp only [if_neg c7]
                            exact DiagOK.mk (by omega) (fun _ => ⟨by omega, by omega⟩)
            · simp only [if_neg h6]
              -- \uXXXX escape
              by_cases h7 : findSpecial s pos + 1 + 1 + 4 > s.length
              · simp only [if_pos h7]
                exact DiagOK.mk (by omega) (fun hgt => by omega)
              · simp only [if_neg h7]
                cases hx : hex4 s (findSpecial s pos + 1 + 1) with
                | none =>
                  simp only [hx]
                  exact DiagOK.mk (by omega) (fun hgt => by omega)
                | some c1 =>
                  simp only [hx]
                  by_cases h8 : isHigh c1 = true
                  · simp only [if_pos h8]
                    by_cases h9 : findSpecial s pos + 1 + 1 + 4 + 2 < s.length ∧
                        rd s (findSpecial s pos + 1 + 1 + 4) = 92 ∧
                        rd s (findSpecial s pos + 1 + 1 + 4 + 1) = 117
                    · simp only [if_pos h9]
                      by_cases h10 : findSpecial s pos + 1 + 1 + 4 + 6 > s.length
                      · simp only [if_pos h10]
                        exact DiagOK.mk (by omega) (fun hgt => by omega)
                      · simp only [if_neg h10]
                        cases hx2 : hex4 s (findSpecial s pos + 1 + 1 + 4 + 2) with
                        | none =>
                          simp only [hx2]
                          exact DiagOK.mk (by omega) (fun hgt => by omega)
                        | some c2 =>
                          simp only [hx2]
                          by_cases h11 : isLow c2 = true
                          · simp only [if_pos h11]
                            exact (ih _ _ (by omega) (by omega)).mono (by omega)
                          · simp only [if_neg h11]
                            by_cases h12 : o.allow_surrogates = true
                            · simp only [h12, not_true, if_false, Bool.not_eq_true,
                                Bool.true_eq_false]
                              exact (ih _ _ (by omega) (by omega)).mono (by omega)
                            · have h12' : o.allow_surrogates = false :=
                                Bool.eq_false_iff.mpr h12
                              simp only [h12', Bool.not_eq_true, Bool.false_eq_true,
                                not_false_iff, if_true, if_pos]
                              exact DiagOK.mk (by omega) (fun _ => ⟨by omega, by omega⟩)
                    · simp only [if_neg h9]
                      by_cases h12 : o.allow_surrogates = true
                      · simp only [h12, not_true, if_false, Bool.not_eq_true,
                          Bool.true_eq_false]
                        exact (ih _ _ (by omega) (by omega)).mono (by omega)
                      · have h12' : o.allow_surrogates = false := Bool.eq_false_iff.mpr h12
                        simp only [h12', Bool.not_eq_true, Bool.false_eq_true,
                          not_false_iff, if_true, if_pos]
                        exact DiagOK.mk (by omega) (fun _ => ⟨by omega, by omega⟩)
                  · simp only [if_neg h8]
                    by_cases h13 : isLow c1 = true ∧ ¬ o.allow_surrogates = true
                    · simp only [if_pos h13]
                      exact DiagOK.mk (by omega) (fun _ => ⟨by omega, by omega⟩)
                    · simp only [if_neg h13]
                      exact (ih _ _ (by omega) (by omega)).mono (by omega)

/-- Bounds of `scanstring_unicode` from an in-range entry. -/
theorem scanstring_bounds (o : ScanOpts) (s : Text) (end0 fuel : Nat)
    (h : end0 ≤ s.length) : StepOK s.length end0 (scanstring o s end0 fuel) := by
  unfold scanstring
  rw [if_neg (by omega)]
  exact (scanstring_loop_bounds o s (end0 - 1) fuel end0 [] (by omega) h).mono (by omega)

theorem rd_ne_lt {s : Text} {i : Nat} (h : rd s i ≠ 0) : i < s.length := by
  by_contra hc
  exact h (rd_past (by omega))

theorem spec_int_bounds {s : Text} {i j : Nat} (h : spec_int s i = some j) :
    i < j ∧ j ≤ s.length := by
  unfold spec_int at h
  split at h
  next h48 =>
    cases h
    have : i < s.length := rd_ne_lt (by omega)
    omega
  next =>
    split at h
    next h19 =>
      cases h
      have hi : i < s.length := rd_ne_lt (by omega)
      have h1 := skipDigits_ge s (i + 1)
      have h2 := skipDigits_le s (i + 1) (by omega)
      omega
    next => cases h

theorem spec_frac_bounds (s : Text) (j : Nat) (hj : j ≤ s.length) :
    j ≤ (spec_frac s j).1 ∧ (spec_frac s j).1 ≤ s.length := by
  unfold spec_frac
  split
  next hc =>
    have : j + 1 < s.length := isDigit_rd_lt hc.2
    have h1 := skipDigits_ge s (j + 2)
    have h2 := skipDigits_le s (j + 2) (by omega)
    constructor <;> simp <;> omega
  next => simp; omega

theorem spec_exp_bounds (s : Text) (k : Nat) (hk : k ≤ s.length) :
    k ≤ (spec_exp s k).1 ∧ (spec_exp s k).1 ≤ s.length := by
  unfold spec_exp
  split
  next hc =>
    by_cases hs : rd s (k + 1) = 45 ∨ rd s (k + 1) = 43 <;>
      simp only [if_pos, if_neg, hs, not_false_iff] <;>
      split
    case pos.isTrue hd =>
      have : k + 2 < s.length := isDigit_rd_lt hd
      have h1 := skipDigits_ge s (k + 2)
      have h2 := skipDigits_le s (k + 2) (by omega)
      constructor <;> simp <;> omega
    case pos.isFalse => simp; omega
    case neg.isTrue hd =>
      have : k + 1 < s.length := isDigit_rd_lt hd
      have h1 := skipDigits_ge s (k + 1)
      have h2 := skipDigits_le s (k + 1) (by omega)
      constructor <;> simp <;> omega
    case neg.isFalse => simp; omega
  next => simp; omega

/-- A successful number match starts before its end, which is in range. -/
theorem match_number_some_bounds {s : Text} {start e : Nat} {f : Bool}
    (h : match_number s start = some (e, f)) : start < e ∧ e ≤ s.length := by
  rw [match_number_agrees] at h
  unfold match_number_spec at h
  dsimp only at h
  cases hsi : spec_int s (if rd s start = 45 then start + 1 else start) with
  | none => rw [hsi] at h; cases h
  | some j =>
    rw [hsi] at h
    obtain ⟨hij, hjl⟩ := spec_int_bounds hsi
    obtain ⟨hjk, hkl⟩ := spec_frac_bounds s j hjl
    obtain ⟨hkm, hml⟩ := spec_exp_bounds s (spec_frac s j).1 hkl
    simp only [] at h
    rcases hf : spec_frac s j with ⟨k, f1⟩
    rw [hf] at h
    rcases he : spec_exp s k with ⟨m, f2⟩
    rw [he] at h
    cases h
    rw [hf] at hjk hkl hkm hml
    rw [he] at hkm hml
    simp at hjk hkl hkm hml
    have hstart : start ≤ (if rd s start = 45 then start + 1 else start) := by
      split <;> omega
    omega

/-- Bounds of `_parse_number_unicode` from an in-range start. -/
theorem parse_number_bounds (s : Text) (start : Nat) (h : start ≤ s.length) :
    StepOK s.length start (parse_number s start) := by
  unfold parse_number
  cases hm : match_number s start with
  | none => exact DiagOK.mk h (fun hgt => by omega)
  | some ef =>
    rcases ef with ⟨e, f⟩
    obtain ⟨h1, h2⟩ := match_number_some_bounds hm
    exact ⟨h1, h2⟩

/-- Bounds of the key reader from an in-range start. -/
theorem read_key_bounds (o : ScanOpts) (s : Text) (idx fuel : Nat)
    (h : idx < s.length) : StepOK s.length idx (read_key o s idx fuel) := by
  unfold read_key
  by_cases h1 : rd s idx = 34
  · simp only [if_pos h1]
    exact (scanstring_bounds o s (idx + 1) fuel (by omega)).mono (by omega)
  · simp only [if_neg h1]
    by_cases h2 : ¬ isAsciiAlpha (rd s idx) = true ∧ rd s idx ≠ 95 ∧ rd s idx ≤ 127
    · simp only [if_pos h2]
      exact DiagOK.mk (by omega) (fun hgt => by omega)
    · simp only [if_neg h2]
      have hg := identEnd_ge s (idx + 1)
      have hl := identEnd_le s (idx + 1) (by omega)
      by_cases h3 : o.uniIdent (slice s idx (identEnd s (idx + 1))) = true
      · simp only [h3, not_true, if_false, Bool.not_eq_true, Bool.true_eq_false]
        by_cases h4 : o.allow_unquoted_keys = true
        · simp only [h4, not_true, if_false, Bool.not_eq_true, Bool.true_eq_false]
          exact ⟨by omega, hl⟩
        · have h4' : o.allow_unquoted_keys = false := Bool.eq_false_iff.mpr h4
          simp only [h4', Bool.not_eq_true, Bool.false_eq_true, not_false_iff, if_true]
          exact DiagOK.mk (by omega) (fun _ => ⟨by omega, by omega⟩)
      · have h3' : o.uniIdent (slice s idx (identEnd s (idx + 1))) = false :=
          Bool.eq_false_iff.mpr h3
        simp only [h3', Bool.not_eq_true, Bool.false_eq_true, not_false_iff, if_true]
        exact DiagOK.mk (by omega) (fun hgt => by omega)

/-- Bounds invariant for the shared comma/close handling: a break lands on the
closing bracket, a continue lands in range, a diagnostic is in bounds. -/
def TailOK (len idx0 : Nat) : Res (Nat ⊕ Nat) → Prop
  | .ok (.inl c) => idx0 ≤ c ∧ c < len
  | .ok (.inr j) => idx0 ≤ j ∧ j ≤ len
  | .err d => DiagOK len d
  | .fatal => True
  | .nofuel => True

theorem item_tail_bounds (o : ScanOpts) (s : Text) (untermMsg : String)
    (openIdx close idx0 fuel : Nat) (h1 : openIdx ≤ idx0) (h2 : idx0 ≤ s.length) :
    TailOK s.length idx0 (item_tail o s untermMsg openIdx close idx0 fuel) := by
  unfold item_tail
  cases hr : skip_comments o s idx0 fuel with
  | err d =>
    have := skip_comments_bounds o s fuel idx0 h2
    rw [hr] at this
    simpa using this
  | fatal => simp [TailOK]
  | nofuel => simp [TailOK]
  | ok idx =>
    have hsk := skip_comments_bounds o s fuel idx0 h2
    rw [hr] at hsk
    obtain ⟨hge, hle⟩ := hsk
    simp only [Res.bind_ok]
    by_cases hlen : idx < s.length
    · simp only [if_pos hlen]
      by_cases hc : rd s idx = 44
      · simp only [if_pos hc]
        cases hr2 : skip_comments o s (idx + 1) fuel with
        | err d =>
          have := skip_comments_bounds o s fuel (idx + 1) (by omega)
          rw [hr2] at this
          simpa using this
        | fatal => simp [TailOK]
        | nofuel => simp [TailOK]
        | ok j =>
          have hsk2 := skip_comments_bounds o s fuel (idx + 1) (by omega)
          rw [hr2] at hsk2
          obtain ⟨hge2, hle2⟩ := hsk2
          simp only [Res.bind_ok]
          by_cases hcl : j < s.length ∧ rd s j = close
          · simp only [if_pos hcl]
            by_cases ht : o.allow_trailing_comma = true
            · simp only [ht, if_true]
              exact ⟨by omega, hcl.1⟩
            · have ht' : o.allow_trailing_comma = false := Bool.eq_false_iff.mpr ht
              simp only [ht', Bool.false_eq_true, if_false]
              exact DiagOK.mk (by omega) (fun _ => ⟨by omega, by omega⟩)
          · simp only [if_neg hcl]
            exact ⟨by omega, hle2⟩
      · simp only [if_neg hc]
        by_cases hcl : rd s idx = close
        · simp only [if_pos hcl]
          exact ⟨hge, hlen⟩
        · simp only [if_neg hcl]
          by_cases heq : idx = idx0
          · simp only [if_pos heq]
            exact DiagOK.mk (by omega) (fun hgt => by omega)
          · simp only [if_neg heq]
            by_cases hm : o.allow_missing_commas = true
            · simp only [hm, not_true, if_false, Bool.not_eq_true, Bool.true_eq_false]
              exact ⟨hge, by omega⟩
            · have hm' : o.allow_missing_commas = false := Bool.eq_false_iff.mpr hm
              simp only [hm', Bool.not_eq_true, Bool.false_eq_true, not_false_iff, if_true]
              exact DiagOK.mk (by omega) (fun hgt => by omega)
    · simp only [if_neg hlen]
      exact DiagOK.mk (by omega) (fun _ => ⟨by omega, by omega⟩)

/-- Case analysis on the first argument of a `Res.bind` under an arbitrary
result predicate. -/
theorem Res.bind_cases {α β : Type} {P : Res β → Prop} (r : Res α) (g : α → Res β)
    (hok : ∀ a, r = .ok a → P (g a))
    (herr : ∀ d, r = .err d → P (.err d))
    (hfat : P .fatal) (hnof : P .nofuel) : P (Res.bind r g) := by
  cases r with
  | ok a => exact hok a rfl
  | err d => exact herr d rfl
  | fatal => exact hfat
  | nofuel => exact hnof

/-- The main bounds invariant of the recursive-descent scanner, proved for
all five mutually recursive routines at once by strong induction on the
fuel: from an in-range cursor every success ends in range beyond its start
and every diagnostic is in bounds. -/
theorem scan_bounds (o : ScanOpts) (s : Text) :
    ∀ fuel,
      (∀ idx, idx ≤ s.length → StepOK s.length idx (scan_once o s idx fuel)) ∧
      (∀ objIdx idx, objIdx < idx → idx ≤ s.length →
        StepOK s.length objIdx (parse_object_body o s objIdx idx fuel)) ∧
      (∀ objIdx idx acc, objIdx < idx → idx ≤ s.length →
        StepOK s.length objIdx (parse_object_items o s objIdx idx acc fuel)) ∧
      (∀ arrIdx idx, arrIdx < idx → idx ≤ s.length →
        StepOK s.length arrIdx (parse_array_body o s arrIdx idx fuel)) ∧
      (∀ arrIdx idx acc, arrIdx < idx → idx ≤ s.length →
        StepOK s.length arrIdx (parse_array_items o s arrIdx idx acc fuel)) := by
  intro fuel
  induction fuel with
  | zero =>
    refine ⟨?_, ?_, ?_, ?_, ?_⟩
    · intro idx _
      exact trivial
    · intro objIdx idx _ _
      exact trivial
    · intro objIdx idx acc _ _
      exact trivial
    · intro arrIdx idx _ _
      exact trivial
    · intro arrIdx idx acc _ _
      exact trivial
  | succ f ih =>
    refine ⟨?_, ?_, ?_, ?_, ?_⟩
    · -- scan_once
      intro idx hidx
      simp only [scan_once]
      by_cases h1 : idx < s.length
      case neg =>
        simp only [if_neg h1]
        exact DiagOK.mk hidx (fun hgt => by omega)
      case pos =>
      simp only [if_pos h1]
      by_cases hq : rd s idx = 34
      · simp only [if_pos hq]
        refine Res.bind_cases _ _ ?_ ?_ trivial trivial
        · intro r hr
          have hss := scanstring_bounds o s (idx + 1) (f + 1) (by omega)
          rw [hr] at hss
          obtain ⟨ha, hb⟩ := hss
          exact ⟨by omega, hb⟩
        · intro d hd
          have hss := scanstring_bounds o s (idx + 1) (f + 1) (by omega)
          rw [hd] at hss
          exact hss
      · simp only [if_neg hq]
        by_cases ho : rd s idx = 123
        · simp only [if_pos ho]
          by_cases hf : f = 0
          · simp only [if_pos hf]
            exact DiagOK.mk (by omega) (fun hgt => by omega)
          · simp only [if_neg hf]
            exact ih.2.1 idx (idx + 1) (by omega) (by omega)
        · simp only [if_neg ho]
          by_cases ha : rd s idx = 91
          · simp only [if_pos ha]
            by_cases hf : f = 0
            · simp only [if_pos hf]
              exact DiagOK.mk (by omega) (fun hgt => by omega)
            · simp only [if_neg hf]
              exact ih.2.2.2.1 idx (idx + 1) (by omega) (by omega)
          · simp only [if_neg ha]
            by_cases hn : rd s idx = 110 ∧ idx + 3 < s.length ∧ rd s (idx + 1) = 117 ∧
                rd s (idx + 2) = 108 ∧ rd s (idx + 3) = 108
            · simp only [if_pos hn]
              exact ⟨by omega, by omega⟩
            · simp only [if_neg hn]
              by_cases ht : rd s idx = 116 ∧ idx + 3 < s.length ∧ rd s (idx + 1) = 114 ∧
                  rd s (idx + 2) = 117 ∧ rd s (idx + 3) = 101
              · simp only [if_pos ht]
                exact ⟨by omega, by omega⟩
              · simp only [if_neg ht]
                by_cases hfa : rd s idx = 102 ∧ idx + 4 < s.length ∧ rd s (idx + 1) = 97 ∧
                    rd s (idx + 2) = 108 ∧ rd s (idx + 3) = 115 ∧ rd s (idx + 4) = 101
                · simp only [if_pos hfa]
                  exact ⟨by omega, by omega⟩
                · simp only [if_neg hfa]
                  by_cases hna : rd s idx = 78 ∧ idx + 2 < s.length ∧
                      rd s (idx + 1) = 97 ∧ rd s (idx + 2) = 78
                  · simp only [if_pos hna]
                    by_cases hal : o.allow_nan_and_infinity = true
                    · simp only [hal, Bool.not_eq_true, Bool.true_eq_false, not_true,
                        if_false, not_false_iff]
                      exact ⟨by omega, by omega⟩
                    · have hal' : o.allow_nan_and_infinity = false :=
                        Bool.eq_false_iff.mpr hal
                      simp only [hal', Bool.not_eq_true, Bool.false_eq_true,
                        not_false_iff, if_true]
                      exact DiagOK.mk (by omega) (fun _ => ⟨by omega, by omega⟩)
                  · simp only [if_neg hna]
                    by_cases hin : rd s idx = 73 ∧ idx + 7 < s.length ∧
                        rd s (idx + 1) = 110 ∧ rd s (idx + 2) = 102 ∧
                        rd s (idx + 3) = 105 ∧ rd s (idx + 4) = 110 ∧
                        rd s (idx + 5) = 105 ∧ rd s (idx + 6) = 116 ∧ rd s (idx + 7) = 121
                    · simp only [if_pos hin]
                      by_cases hal : o.allow_nan_and_infinity = true
                      · simp only [hal, Bool.not_eq_true, Bool.true_eq_false, not_true,
                          if_false, not_false_iff]
                        exact ⟨by omega, by omega⟩
                      · have hal' : o.allow_nan_and_infinity = false :=
                          Bool.eq_false_iff.mpr hal
                        simp only [hal', Bool.not_eq_true, Bool.false_eq_true,
                          not_false_iff, if_true]
                        exact DiagOK.mk (by omega) (fun _ => ⟨by omega, by omega⟩)
                    · simp only [if_neg hin]
                      by_cases hni : rd s idx = 45 ∧ idx + 8 < s.length ∧
                          rd s (idx + 1) = 73 ∧ rd s (idx + 2) = 110 ∧
                          rd s (idx + 3) = 102 ∧ rd s (idx + 4) = 105 ∧
                          rd s (idx + 5) = 110 ∧ rd s (idx + 6) = 105 ∧
                          rd s (idx + 7) = 116 ∧ rd s (idx + 8) = 121
                      · simp only [if_pos hni]
                        by_cases hal : o.allow_nan_and_infinity = true
                        · simp only [hal, Bool.not_eq_true, Bool.true_eq_false, not_true,
                            if_false, not_false_iff]
                          exact ⟨by omega, by omega⟩
                        · have hal' : o.allow_nan_and_infinity = false :=
                            Bool.eq_false_iff.mpr hal
                          simp only [hal', Bool.not_eq_true, Bool.false_eq_true,
                            not_false_iff, if_true]
                          exact DiagOK.mk (by omega) (fun _ => ⟨by omega, by omega⟩)
                      · simp only [if_neg hni]
                        exact parse_number_bounds s idx hidx
    · -- parse_object_body
      intro objIdx idx hlt hidx
      simp only [parse_object_body]
      refine Res.bind_cases _ _ ?_ ?_ trivial trivial
      · intro i1 hi1
        have hsk := skip_comments_bounds o s (f + 1) idx hidx
        rw [hi1] at hsk
        obtain ⟨hge, hle⟩ := hsk
        by_cases hcl : i1 < s.length ∧ rd s i1 = 125
        · simp only [if_pos hcl]
          exact ⟨by omega, by omega⟩
        · simp only [if_neg hcl]
          exact ih.2.2.1 objIdx i1 [] (by omega) hle
      · intro d hd
        have hsk := skip_comments_bounds o s (f + 1) idx hidx
        rw [hd] at hsk
        exact hsk
    · -- parse_object_items
      intro objIdx idx acc hlt hidx
      simp only [parse_object_items]
      by_cases h1 : idx < s.length
      case neg =>
        simp only [if_neg h1]
        exact DiagOK.mk (by omega) (fun hgt => ⟨by omega, by omega⟩)
      case pos =>
      simp only [if_pos h1]
      refine Res.bind_cases _ _ ?_ ?_ trivial trivial
      · intro kr hkr
        have hrk := read_key_bounds o s idx (f + 1) h1
        rw [hkr] at hrk
        obtain ⟨hkg, hkl⟩ := hrk
        refine Res.bind_cases _ _ ?_ ?_ trivial trivial
        · intro i2 hi2
          have hsk := skip_comments_bounds o s (f + 1) kr.2 hkl
          rw [hi2] at hsk
          obtain ⟨h2g, h2l⟩ := hsk
          by_cases hcol : i2 < s.length ∧ rd s i2 = 58
          · simp only [if_pos hcol]
            refine Res.bind_cases _ _ ?_ ?_ trivial trivial
            · intro i3 hi3
              have hsk3 := skip_comments_bounds o s (f + 1) (i2 + 1) (by omega)
              rw [hi3] at hsk3
              obtain ⟨h3g, h3l⟩ := hsk3
              refine Res.bind_cases _ _ ?_ ?_ trivial trivial
              · intro vn hvn
                have hso := ih.1 i3 h3l
                rw [hvn] at hso
                obtain ⟨hvg, hvl⟩ := hso
                refine Res.bind_cases _ _ ?_ ?_ trivial trivial
                · intro tc htc
                  have hit := item_tail_bounds o s "Unterminated object" objIdx 125
                    vn.2 (f + 1) (by omega) hvl
                  rw [htc] at hit
                  cases tc with
                  | inl c =>
                    obtain ⟨hcg, hcl2⟩ := hit
                    exact ⟨by omega, by omega⟩
                  | inr j =>
                    obtain ⟨hjg, hjl⟩ := hit
                    exact ih.2.2.1 objIdx j _ (by omega) hjl
                · intro d hd
                  have hit := item_tail_bounds o s "Unterminated object" objIdx 125
                    vn.2 (f + 1) (by omega) hvl
                  rw [hd] at hit
                  exact hit
              · intro d hd
                have hso := ih.1 i3 h3l
                rw [hd] at hso
                exact hso
            · intro d hd
              have hsk3 := skip_comments_bounds o s (f + 1) (i2 + 1) (by omega)
              rw [hd] at hsk3
              exact hsk3
          · simp only [if_neg hcol]
            exact DiagOK.mk (by omega) (fun hgt => by omega)
        · intro d hd
          have hsk := skip_comments_bounds o s (f + 1) kr.2 hkl
          rw [hd] at hsk
          exact hsk
      · intro d hd
        have hrk := read_key_bounds o s idx (f + 1) h1
        rw [hd] at hrk
        exact hrk
    · -- parse_array_body
      intro arrIdx idx hlt hidx
      simp only [parse_array_body]
      refine Res.bind_cases _ _ ?_ ?_ trivial trivial
      · intro i1 hi1
        have hsk := skip_comments_bounds o s (f + 1) idx hidx
        rw [hi1] at hsk
        obtain ⟨hge, hle⟩ := hsk
        by_cases hcl : i1 < s.length ∧ rd s i1 = 93
        · simp only [if_pos hcl]
          exact ⟨by omega, by omega⟩
        · simp only [if_neg hcl]
          exact ih.2.2.2.2 arrIdx i1 [] (by omega) hle
      · intro d hd
        have hsk := skip_comments_bounds o s (f + 1) idx hidx
        rw [hd] at hsk
        exact hsk
    · -- parse_array_items
      intro arrIdx idx acc hlt hidx
      simp only [parse_array_items]
      by_cases h1 : idx < s.length
      case neg =>
        simp only [if_neg h1]
        exact DiagOK.mk (by omega) (fun hgt => ⟨by omega, by omega⟩)
      case pos =>
      simp only [if_pos h1]
      refine Res.bind_cases _ _ ?_ ?_ trivial trivial
      · intro vn hvn
        have hso := ih.1 idx (by omega)
        rw [hvn] at hso
        obtain ⟨hvg, hvl⟩ := hso
        refine Res.bind_cases _ _ ?_ ?_ trivial trivial
        · intro tc htc
          have hit := item_tail_bounds o s "Unterminated array" arrIdx 93
            vn.2 (f + 1) (by omega) hvl
          rw [htc] at hit
          cases tc with
          | inl c =>
            obtain ⟨hcg, hcl2⟩ := hit
            exact ⟨by omega, by omega⟩
          | inr j =>
            obtain ⟨hjg, hjl⟩ := hit
            exact ih.2.2.2.2 arrIdx j _ (by omega) hjl
        · intro d hd
          have hit := item_tail_bounds o s "Unterminated array" arrIdx 93
            vn.2 (f + 1) (by omega) hvl
          rw [hd] at hit
          exact hit
      · intro d hd
        have hso := ih.1 idx (by omega)
        rw [hd] at hso
        exact hso

/-- Every diagnostic produced by the scanner entry point is in bounds. -/
theorem scanner_call_err_bounds (o : ScanOpts) (s : Text) (fuel : Nat) (d : Diag)
    (h : scanner_call o s fuel = .err d) : DiagOK s.length d := by
  unfold scanner_call at h
  split at h
  next hbom =>
    cases h
    exact DiagOK.mk (by omega) (fun _ => ⟨by omega, by omega⟩)
  next hbom =>
    rcases Res.bind_eq_err h with h1 | ⟨idx, hidx, h1⟩
    · have hsk := skip_comments_bounds o s fuel 0 (by omega)
      rw [h1] at hsk
      exact hsk
    · have hsk := skip_comments_bounds o s fuel 0 (by omega)
      rw [hidx] at hsk
      obtain ⟨-, hle⟩ := hsk
      rcases Res.bind_eq_err h1 with h2 | ⟨vn, hvn, h2⟩
      · have hso := (scan_bounds o s fuel).1 idx hle
        rw [h2] at hso
        exact hso
      · have hso := (scan_bounds o s fuel).1 idx hle
        rw [hvn] at hso
        obtain ⟨-, hvl⟩ := hso
        rcases Res.bind_eq_err h2 with h3 | ⟨j, hj, h3⟩
        · have hsk2 := skip_comments_bounds o s fuel vn.2 hvl
          rw [h3] at hsk2
          exact hsk2
        · have hsk2 := skip_comments_bounds o s fuel vn.2 hvl
          rw [hj] at hsk2
          obtain ⟨-, hjl⟩ := hsk2
          split at h3
          next => cases h3; exact DiagOK.mk (by omega) (fun hgt => by omega)
          next => cases h3

/-- Scanner options with every permissive flag disabled (and an identifier
oracle that rejects everything, irrelevant to quoted inputs). -/
def plainOpts : ScanOpts := ⟨false, false, false, false, false, false, false, fun _ => false⟩

/-- C2.  For every input text, every flag setting and every fuel, any syntax
diagnostic raised by the scanner satisfies `0 ≤ start ≤ end ≤ len(T)`
(`start : Nat`, so `0 ≤ start` holds by type; `end` is the reporter's
normalisation `normEnd` of the raw offset pair). -/
theorem claimC2_diag_bounds (o : ScanOpts) (s : Text) (fuel : Nat) (d : Diag)
    (h : scanner_call o s fuel = .err d) :
    d.start ≤ normEnd s.length d ∧ normEnd s.length d ≤ s.length :=
  (scanner_call_err_bounds o s fuel d h).norm

theorem claimC2_witness :
    (⟨"Expecting value", 0, 0⟩ : Diag).start ≤
        normEnd (List.length ([] : Text)) ⟨"Expecting value", 0, 0⟩ ∧
      normEnd (List.length ([] : Text)) ⟨"Expecting value", 0, 0⟩ ≤
        List.length ([] : Text) :=
  claimC2_diag_bounds plainOpts [] 1 ⟨"Expecting value", 0, 0⟩ (by rfl)

/-- If the comment skipper consumes the whole input from offset 0, the first
character is whitespace or a slash (so in particular not a BOM). -/
theorem skip_all_first (o : ScanOpts) (s : Text) (fuel : Nat)
    (h : skip_comments o s 0 fuel = .ok s.length) (hne : s.length ≠ 0) :
    isWs (rd s 0) = true ∨ rd s 0 = 47 := by
  cases fuel with
  | zero => cases h
  | succ fuel =>
    rw [skip_comments] at h
    rw [if_pos (by omega : 0 < s.length)] at h
    by_cases hw : isWs (rd s 0) = true
    · exact Or.inl hw
    · simp only [hw, Bool.false_eq_true, if_false] at h
      by_cases hl : 0 + 1 < s.length ∧ rd s 0 = 47 ∧ rd s (0 + 1) = 47
      · exact Or.inr hl.2.1
      · simp only [if_neg hl] at h
        by_cases hb : 0 + 1 < s.length ∧ rd s 0 = 47 ∧ rd s (0 + 1) = 42
        · exact Or.inr hb.2.1
        · simp only [if_neg hb] at h
          have := Res.ok.inj h
          omega

/-- C10.  For every input that the whitespace-and-comment skipper consumes
entirely (empty, or only whitespace and permitted comments), the scanner
fails with "Expecting value" positioned at the end of the consumed prefix
(the length of the input) and never returns a value. -/
theorem claimC10_ws_only (o : ScanOpts) (s : Text) (fuel : Nat)
    (h : skip_comments o s 0 fuel = .ok s.length) :
    scanner_call o s fuel = .err ⟨"Expecting value", s.length, 0⟩ := by
  obtain ⟨f, rfl⟩ : ∃ f, fuel = f + 1 := by
    cases fuel with
    | zero => cases h
    | succ f => exact ⟨f, rfl⟩
  unfold scanner_call
  have hbom : ¬ (0 < s.length ∧ rd s 0 = 0xFEFF) := by
    rintro ⟨hpos, hfeff⟩
    rcases skip_all_first o s (f + 1) h (by omega) with hw | h47
    · rw [hfeff] at hw
      exact absurd hw (by decide)
    · omega
  rw [if_neg hbom, h]
  simp only [Res.bind_ok, scan_once]
  rw [if_neg (lt_irrefl s.length)]
  rfl

theorem claimC10_witness :
    scanner_call plainOpts [32] 2 = .err ⟨"Expecting value", 1, 0⟩ :=
  claimC10_ws_only plainOpts [32] 2 (by rfl)

/-- C3 counterexample: on the input `/*` (an unterminated block comment) with
`allow_comments` disabled, the scanner reports "Comments are not allowed",
not "Unterminated comment" — so the termination message does not take
precedence over the permission check. -/
theorem claimC3_counterexample :
    Res.errMsg (scanner_call plainOpts [47, 42] 5) = some "Comments are not allowed" ∧
      Res.errMsg (scanner_call plainOpts [47, 42] 5) ≠ some "Unterminated comment" := by
  constructor
  · rfl
  · decide

/-- C3 (amended).  At an unterminated block comment (`/*` with no matching
`*/` before the end of the input), `_skip_comments` reports "Unterminated
comment" when `allow_comments` is enabled and the permission diagnostic
"Comments are not allowed" when it is disabled; both cover the comment start
to the end of the input. -/
theorem claimC3_unterminated_comment (o : ScanOpts) (s : Text) (idx fuel : Nat)
    (h1 : idx + 1 < s.length) (h2 : rd s idx = 47) (h3 : rd s (idx + 1) = 42)
    (h4 : findBlockEnd s (idx + 2) = none) (h5 : 0 < fuel) :
    skip_comments o s idx fuel =
      .err ⟨if o.allow_comments then "Unterminated comment"
            else "Comments are not allowed", idx, (s.length : Int)⟩ := by
  obtain ⟨f, rfl⟩ : ∃ f, fuel = f + 1 := ⟨fuel - 1, by omega⟩
  rw [skip_comments]
  have hws : isWs (rd s idx) = false := by rw [h2]; decide
  have hnl : ¬ (idx + 1 < s.length ∧ rd s idx = 47 ∧ rd s (idx + 1) = 47) := by
    rintro ⟨-, -, hx⟩
    omega
  rw [if_pos (by omega : idx < s.length)]
  simp only [hws, Bool.false_eq_true, if_false, if_neg hnl,
    if_pos (⟨h1, h2, h3⟩ : _ ∧ _ ∧ _), h4]
  by_cases hc : o.allow_comments = true <;> simp [hc]

theorem claimC3_witness :
    skip_comments ⟨true, false, false, false, false, false, false, fun _ => false⟩
        [47, 42, 32] 0 3 = .err ⟨"Unterminated comment", 0, 3⟩ := by
  have h := claimC3_unterminated_comment
    ⟨true, false, false, false, false, false, false, fun _ => false⟩
    [47, 42, 32] 0 3 (by decide) (by rfl) (by rfl) (by rfl) (by decide)
  simpa using h

/-- C5.  The comma handling shared by the object and array loops: (1) after a
comma whose next significant token is the closing bracket, parsing continues
past the bracket iff `allow_trailing_comma`, else it fails with "Trailing
comma is not allowed" over (comma, comma+1); (2) when the next token is
neither a comma nor the closing bracket, parsing continues iff
`allow_missing_commas` and whitespace or comments separate the tokens,
failing with "Expecting comma" when the next token starts where the previous
ended and with "Missing commas are not allowed" otherwise. -/
theorem claimC5_comma_handling (o : ScanOpts) (s : Text) (msg : String)
    (openIdx close idx0 fuel j : Nat)
    (hsk : skip_comments o s idx0 fuel = .ok j) (hj : j < s.length) :
    (∀ k, rd s j = 44 → skip_comments o s (j + 1) fuel = .ok k → k < s.length →
      rd s k = close →
      item_tail o s msg openIdx close idx0 fuel =
        (if o.allow_trailing_comma then .ok (.inl k)
         else .err ⟨"Trailing comma is not allowed", j, ((j + 1 : Nat) : Int)⟩)) ∧
    (rd s j ≠ 44 → rd s j ≠ close →
      item_tail o s msg openIdx close idx0 fuel =
        (if j = idx0 then .err ⟨"Expecting comma", idx0, 0⟩
         else if ¬ o.allow_missing_commas then
           .err ⟨"Missing commas are not allowed", idx0, 0⟩
         else .ok (.inr j))) := by
  constructor
  · intro k h44 hsk2 hk hkc
    unfold item_tail
    rw [hsk]
    simp only [Res.bind_ok, if_pos hj, if_pos h44]
    rw [hsk2]
    simp only [Res.bind_ok, if_pos (⟨hk, hkc⟩ : _ ∧ _)]
  · intro h44 hcl
    unfold item_tail
    rw [hsk]
    simp only [Res.bind_ok, if_pos hj, if_neg h44, if_neg hcl]

theorem claimC5_witness :
    item_tail plainOpts [49, 44, 93] "Unterminated array" 0 93 1 5 =
        .err ⟨"Trailing comma is not allowed", 1, 2⟩ ∧
      item_tail plainOpts [49, 32, 50] "Unterminated array" 0 93 1 5 =
        .err ⟨"Missing commas are not allowed", 1, 0⟩ := by
  constructor
  · have h := (claimC5_comma_handling plainOpts [49, 44, 93] "Unterminated array"
      0 93 1 5 1 (by rfl) (by decide)).1 2 (by rfl) (by rfl) (by decide) (by rfl)
    simpa using h
  · have h := (claimC5_comma_handling plainOpts [49, 32, 50] "Unterminated array"
      0 93 1 5 2 (by rfl) (by decide)).2 (by decide) (by decide)
    simpa using h

/-! ### Encoder-side string escaping
(`ascii_escape_unichar`/`ascii_escape_unicode` 158-265, `escape_unicode`
267-364, `encoder_write_string` 1600-1620 of `_speedups.c`) -/

/-- `S_CHAR(c)`: printable ASCII needing no escape. -/
def sChar (c : Nat) : Bool := 32 ≤ c ∧ c ≤ 126 ∧ c ≠ 92 ∧ c ≠ 34

/-- `Py_hexdigits[n]` for a nibble. -/
def hexDig (n : Nat) : Nat := if n < 10 then 48 + n else 87 + n

/-- A `\uXXXX` escape: backslash, `u`, four hex digits (the C's shifts and
masks are the shown divisions and remainders). -/
def uEsc (c : Nat) : Text :=
  [92, 117, hexDig (c / 4096 % 16), hexDig (c / 256 % 16), hexDig (c / 16 % 16),
    hexDig (c % 16)]

/-- `Py_UNICODE_HIGH_SURROGATE(ch)`. -/
def highSurrogate (c : Nat) : Nat := 0xD800 + (c - 0x10000) / 0x400

/-- `Py_UNICODE_LOW_SURROGATE(ch)`. -/
def lowSurrogate (c : Nat) : Nat := 0xDC00 + c % 0x400

/-- `ascii_escape_unichar` (158-196) together with the `S_CHAR` passthrough
of its caller: the expansion of one code point, `none` when a lone surrogate
is rejected (`allow_surrogates` false). -/
def escCharA (allow : Bool) (c : Nat) : Option Text :=
  if sChar c then some [c]
  else if c = 92 ∨ c = 34 then some [92, c]
  else if c = 8 then some [92, 98]
  else if c = 12 then some [92, 102]
  else if c = 10 then some [92, 110]
  else if c = 13 then some [92, 114]
  else if c = 9 then some [92, 116]
  else if 0x10000 ≤ c then some (uEsc (highSurrogate c) ++ uEsc (lowSurrogate c))
  else if 0xD800 ≤ c ∧ c ≤ 0xDFFF ∧ ¬ allow then none
  else some (uEsc c)

/-- The sizing pass of `ascii_escape_unicode` (216-236): the output length
contributed by one code point (lone surrogates are sized 6 and only rejected
in the writing pass, as in the source). -/
def escSizeA (c : Nat) : Nat :=
  if sChar c then 1
  else if c = 92 ∨ c = 34 ∨ c = 8 ∨ c = 12 ∨ c = 10 ∨ c = 13 ∨ c = 9 then 2
  else if 0x10000 ≤ c then 12
  else 6

/-- The writing pass of `ascii_escape_unicode` (248-260). -/
def escListA (allow : Bool) : Text → Option Text
  | [] => some []
  | c :: t =>
    match escCharA allow c with
    | none => none
    | some e =>
      match escListA allow t with
      | none => none
      | some r => some (e ++ r)

/-- `ascii_escape_unicode` (198-265): borrow the input unchanged when no
character needs escaping (the `Py_ssize_t` overflow guard cannot fire on
unbounded naturals), else escape character by character. -/
def ascii_escape (s : Text) (allow : Bool) : Option Text :=
  if (s.map escSizeA).sum = s.length then some s else escListA allow s

/-- One code point of `escape_unicode`'s `ENCODE_OUTPUT` (318-343). -/
def escUChar (c : Nat) : Text :=
  if c = 92 ∨ c = 34 then [92, c]
  else if c = 8 then [92, 98]
  else if c = 12 then [92, 102]
  else if c = 10 then [92, 110]
  else if c = 13 then [92, 114]
  else if c = 9 then [92, 116]
  else if c ≤ 0x1f then [92, 117, 48, 48, hexDig (c / 16 % 16), hexDig (c % 16)]
  else [c]

/-- The sizing pass of `escape_unicode` (286-305). -/
def escSizeU (c : Nat) : Nat :=
  if c = 92 ∨ c = 34 ∨ c = 8 ∨ c = 12 ∨ c = 10 ∨ c = 13 ∨ c = 9 then 2
  else if c ≤ 0x1f then 6
  else 1

def escListU : Text → Text
  | [] => []
  | c :: t => escUChar c ++ escListU t

/-- `escape_unicode` (267-364): borrow the input when nothing needs
escaping, else escape character by character; never fails (surrogates pass
through verbatim). -/
def escape_unicode (s : Text) : Text :=
  if (s.map escSizeU).sum = s.length then s else escListU s

/-- `encoder_write_string` (1600-1620): write `"`, the escape chosen by
`ensure_ascii`, then `"`. -/
def encoder_write_string (ensure_ascii allow_surrogates : Bool) (s : Text) : Option Text :=
  match (if ensure_ascii then ascii_escape s allow_surrogates
         else some (escape_unicode s)) with
  | none => none
  | some e => some (34 :: (e ++ [34]))

theorem escListA_all_sChar (allow : Bool) :
    ∀ s : Text, (∀ c ∈ s, sChar c = true) → escListA allow s = some s := by
  intro s
  induction s with
  | nil => intro _; rfl
  | cons c t ih =>
    intro h
    have hc : sChar c = true := h c (by simp)
    simp only [escListA, escCharA, if_pos hc, ih (fun x hx => h x (by simp [hx]))]
    simp

theorem sum_escSizeA_all_sChar (s : Text) (h : ∀ c ∈ s, sChar c = true) :
    (s.map escSizeA).sum = s.length := by
  induction s with
  | nil => rfl
  | cons c t ih =>
    have hc : sChar c = true := h c (by simp)
    simp only [List.map_cons, List.sum_cons, escSizeA, if_pos hc, List.length_cons]
    rw [ih (fun x hx => h x (by simp [hx]))]
    omega

theorem sum_escSizeU_all_plain (s : Text) (h : ∀ c ∈ s, c ≠ 92 ∧ c ≠ 34 ∧ 31 < c) :
    (s.map escSizeU).sum = s.length := by
  induction s with
  | nil => rfl
  | cons c t ih =>
    obtain ⟨h1, h2, h3⟩ := h c (by simp)
    have e1 : escSizeU c = 1 := by
      unfold escSizeU
      rw [if_neg (by omega), if_neg (by omega)]
    simp only [List.map_cons, List.sum_cons, e1, List.length_cons]
    rw [ih (fun x hx => h x (by simp [hx]))]
    omega

/-- C8.  Neither escape operation emits the surrounding quotes: the caller
(`encoder_write_string`) writes `"` before and after the escape's output.
And on inputs in which no character requires escaping (printable ASCII
outside `\` and `"` for the ASCII variant; anything above the controls and
outside `\` and `"` for the full-Unicode variant) the escape returns its
input unchanged (the borrow fast path). -/
theorem claimC8_escape_quotes_borrow :
    (∀ (ea al : Bool) (s e : Text),
      (if ea then ascii_escape s al else some (escape_unicode s)) = some e →
      encoder_write_string ea al s = some (34 :: (e ++ [34]))) ∧
    (∀ (al : Bool) (s : Text), (∀ c ∈ s, sChar c = true) →
      ascii_escape s al = some s) ∧
    (∀ s : Text, (∀ c ∈ s, c ≠ 92 ∧ c ≠ 34 ∧ 31 < c) →
      escape_unicode s = s) := by
  refine ⟨?_, ?_, ?_⟩
  · intro ea al s e h
    unfold encoder_write_string
    rw [h]
  · intro al s h
    unfold ascii_escape
    rw [if_pos (sum_escSizeA_all_sChar s h)]
  · intro s h
    unfold escape_unicode
    rw [if_pos (sum_escSizeU_all_plain s h)]

theorem claimC8_witness :
    encoder_write_string true false [97, 98] = some (34 :: ([97, 98] ++ [34])) ∧
      ascii_escape [97, 98] false = some [97, 98] ∧
      escape_unicode [0xE9] = [0xE9] := by
  refine ⟨?_, ?_, ?_⟩
  · exact claimC8_escape_quotes_borrow.1 true false [97, 98] [97, 98] (by decide)
  · exact claimC8_escape_quotes_borrow.2.1 false [97, 98] (by decide)
  · exact claimC8_escape_quotes_borrow.2.2 [0xE9] (by decide)

/-! ### Positional reading lemmas for the round-trip proof -/

theorem rd_cons_zero (x : Nat) (xs : Text) : rd (x :: xs) 0 = x := rfl

theorem rd_cons_succ (x : Nat) (xs : Text) (n : Nat) : rd (x :: xs) (n + 1) = rd xs n := rfl

theorem rd_append (P l : Text) (i : Nat) : rd (P ++ l) (P.length + i) = rd l i := by
  induction P with
  | nil => simp [rd]
  | cons p t ih =>
    simp only [List.cons_append, List.length_cons]
    rw [show t.length + 1 + i = (t.length + i) + 1 from by omega, rd_cons_succ]
    exact ih

theorem rd_pref (P e l : Text) (i : Nat) (h : i < e.length) :
    rd (P ++ (e ++ l)) (P.length + i) = rd e i := by
  rw [rd_append]
  unfold rd
  rw [List.getD_append _ _ _ _ h]

theorem rd_lt {s : Text} {i : Nat} (h : i < s.length) : rd s i = s[i] := by
  simp [rd, List.getD, List.getElem?_eq_getElem h]

theorem slice_self (s : Text) (a : Nat) : slice s a a = [] := by
  simp [slice]

theorem slice_cons {s : Text} {a b : Nat} (ha : a < s.length) (hab : a < b) :
    slice s a b = rd s a :: slice s (a + 1) b := by
  unfold slice
  rw [List.drop_eq_getElem_cons ha, rd_lt ha,
    show b - a = (b - (a + 1)) + 1 from by omega, List.take_succ_cons]

theorem findSpecial_at {s : Text} {i : Nat} (h1 : i < s.length)
    (h2 : isSpecial (rd s i) = true) : findSpecial s i = i := by
  unfold findSpecial
  obtain ⟨g, hg⟩ : ∃ g, s.length - i = g + 1 := ⟨s.length - i - 1, by omega⟩
  rw [hg]
  simp only [findSpecialAux, if_pos h1, if_pos h2]

theorem findSpecial_shift {s : Text} {i : Nat} (h1 : i < s.length)
    (h2 : isSpecial (rd s i) = false) : findSpecial s i = findSpecial s (i + 1) := by
  unfold findSpecial
  obtain ⟨g, hg⟩ : ∃ g, s.length - i = g + 1 := ⟨s.length - i - 1, by omega⟩
  rw [hg]
  simp only [findSpecialAux, if_pos h1, h2, Bool.false_eq_true, if_false]
  rw [show g = s.length - (i + 1) from by omega]

theorem hexVal_hexDig {n : Nat} (h : n < 16) : hexVal (hexDig n) = some n := by
  unfold hexVal hexDig
  by_cases h10 : n < 10
  · rw [if_pos h10, if_pos (by omega)]
    congr 1
    omega
  · rw [if_neg h10, if_neg (by omega), if_pos (by omega)]
    congr 1
    omega

theorem hex4_of_rds {s : Text} {i a b c d : Nat}
    (ha : rd s i = hexDig a) (hb : rd s (i + 1) = hexDig b)
    (hc : rd s (i + 2) = hexDig c) (hd : rd s (i + 3) = hexDig d)
    (la : a < 16) (lb : b < 16) (lc : c < 16) (ld : d < 16) :
    hex4 s i = some (((a * 16 + b) * 16 + c) * 16 + d) := by
  unfold hex4
  rw [ha, hb, hc, hd, hexVal_hexDig la, hexVal_hexDig lb, hexVal_hexDig lc,
    hexVal_hexDig ld]

/-- Reading the four digits of a `\uXXXX` written by `uEsc` recovers the
BMP value. -/
theorem hex4_uEsc (P l : Text) (c : Nat) (hc : c < 0x10000) :
    hex4 (P ++ (uEsc c ++ l)) (P.length + 2) = some c := by
  have h2 : rd (P ++ (uEsc c ++ l)) (P.length + 2) = hexDig (c / 4096 % 16) :=
    rd_pref P (uEsc c) l 2 (by simp [uEsc])
  have h3 : rd (P ++ (uEsc c ++ l)) (P.length + 2 + 1) = hexDig (c / 256 % 16) := by
    rw [show P.length + 2 + 1 = P.length + 3 from rfl]
    exact rd_pref P (uEsc c) l 3 (by simp [uEsc])
  have h4 : rd (P ++ (uEsc c ++ l)) (P.length + 2 + 2) = hexDig (c / 16 % 16) := by
    rw [show P.length + 2 + 2 = P.length + 4 from rfl]
    exact rd_pref P (uEsc c) l 4 (by simp [uEsc])
  have h5 : rd (P ++ (uEsc c ++ l)) (P.length + 2 + 3) = hexDig (c % 16) := by
    rw [show P.length + 2 + 3 = P.length + 5 from rfl]
    exact rd_pref P (uEsc c) l 5 (by simp [uEsc])
  rw [hex4_of_rds h2 h3 h4 h5 (by omega) (by omega) (by omega) (by omega)]
  congr 1
  omega

/-! ### Symbolic evaluation of one `scanstring_unicode` iteration -/

/-- One literal (non-special) character: the chunk scan passes over it and
the decoded text gains it; no loop iteration is consumed. -/
theorem scan_lit (o : ScanOpts) (s : Text) (bgn pos : Nat) (acc : Text) (fuel : Nat)
    (hpos : pos < s.length) (hns : isSpecial (rd s pos) = false) :
    scanstring_loop o s bgn pos acc fuel =
      scanstring_loop o s bgn (pos + 1) (acc ++ [rd s pos]) fuel := by
  cases fuel with
  | zero => rfl
  | succ f =>
    have hsh : findSpecial s pos = findSpecial s (pos + 1) := findSpecial_shift hpos hns
    have hlt : pos < findSpecial s (pos + 1) :=
      lt_of_lt_of_le (by omega) (findSpecial_ge s (pos + 1))
    have hchunk : acc ++ slice s pos (findSpecial s (pos + 1)) =
        (acc ++ [rd s pos]) ++ slice s (pos + 1) (findSpecial s (pos + 1)) := by
      rw [slice_cons hpos hlt]
      simp
    simp only [scanstring_loop, hsh, hchunk]

/-- The closing quote: finish with the accumulated text. -/
theorem scan_quote (o : ScanOpts) (s : Text) (bgn pos : Nat) (acc : Text) (fuel : Nat)
    (hpos : pos < s.length) (hq : rd s pos = 34) :
    scanstring_loop o s bgn pos acc (fuel + 1) = .ok (acc, pos + 1) := by
  have hfs : findSpecial s pos = pos := findSpecial_at hpos (by simp [isSpecial, hq])
  simp only [scanstring_loop, hfs]
  rw [if_neg (by simp [hq]), if_neg (by simp [hq, hpos]), slice_self,
    List.append_nil, if_pos hq]

/-- A single-character backslash escape. -/
theorem scan_esc_single (o : ScanOpts) (s : Text) (bgn pos : Nat) (acc : Text)
    (fuel e v : Nat)
    (hpos : pos < s.length) (hbs : rd s pos = 92) (hp1 : pos + 1 < s.length)
    (he : rd s (pos + 1) = e)
    (hev : (e = 34 ∧ v = 34) ∨ (e = 92 ∧ v = 92) ∨ (e = 47 ∧ v = 47) ∨
      (e = 98 ∧ v = 8) ∨ (e = 102 ∧ v = 12) ∨ (e = 110 ∧ v = 10) ∨
      (e = 114 ∧ v = 13) ∨ (e = 116 ∧ v = 9)) :
    scanstring_loop o s bgn pos acc (fuel + 1) =
      scanstring_loop o s bgn (pos + 2) (acc ++ [v]) fuel := by
  have hfs : findSpecial s pos = pos := findSpecial_at hpos (by simp [isSpecial, hbs])
  simp only [scanstring_loop, hfs]
  rw [if_neg (by simp [hbs]), if_neg (by simp [hbs, hpos]), slice_self,
    List.append_nil, if_neg (by simp [hbs]), if_neg (by omega : ¬ pos + 1 = s.length),
    he]
  rcases hev with ⟨h1, h2⟩ | ⟨h1, h2⟩ | ⟨h1, h2⟩ | ⟨h1, h2⟩ | ⟨h1, h2⟩ |
    ⟨h1, h2⟩ | ⟨h1, h2⟩ | ⟨h1, h2⟩ <;> subst h1 <;> subst h2 <;> simp

theorem isLow_not_isHigh {c : Nat} (h : isLow c = true) : isHigh c = false := by
  simp [isLow] at h
  simp [isHigh]
  omega

/-- A `\uXXXX` escape decoding to a non-surrogate BMP value. -/
theorem scan_esc_u_bmp (o : ScanOpts) (s : Text) (bgn pos : Nat) (acc : Text)
    (fuel c1 : Nat)
    (hpos : pos < s.length) (hbs : rd s pos = 92) (hu : rd s (pos + 1) = 117)
    (hlen : pos + 6 ≤ s.length) (h4 : hex4 s (pos + 2) = some c1)
    (hnh : isHigh c1 = false) (hnl : isLow c1 = false) :
    scanstring_loop o s bgn pos acc (fuel + 1) =
      scanstring_loop o s bgn (pos + 6) (acc ++ [c1]) fuel := by
  have hfs : findSpecial s pos = pos := findSpecial_at hpos (by simp [isSpecial, hbs])
  have hp1 : pos + 1 < s.length := by omega
  simp only [scanstring_loop, hfs]
  rw [if_neg (by simp [hbs]), if_neg (by simp [hbs, hpos]), slice_self,
    List.append_nil, if_neg (by simp [hbs]), if_neg (by omega : ¬ pos + 1 = s.length),
    hu, if_neg (by simp : ¬ (117 : Nat) ≠ 117)]
  simp only [show pos + 1 + 1 = pos + 2 from rfl, show pos + 1 + 1 + 4 = pos + 6 from rfl]
  rw [if_neg (by omega : ¬ pos + 6 > s.length), h4]
  simp [hnh, hnl]

/-- A high-surrogate `\uXXXX` followed by a low-surrogate `\uYYYY`: the two
combine into one supplementary code point. -/
theorem scan_esc_u_pair (o : ScanOpts) (s : Text) (bgn pos : Nat) (acc : Text)
    (fuel c1 c2 : Nat)
    (hpos : pos < s.length) (hbs : rd s pos = 92) (hu : rd s (pos + 1) = 117)
    (h4 : hex4 s (pos + 2) = some c1) (hhigh : isHigh c1 = true)
    (h92 : rd s (pos + 6) = 92) (h117 : rd s (pos + 7) = 117)
    (hlen2 : pos + 8 < s.length) (hlen6 : pos + 12 ≤ s.length)
    (h4b : hex4 s (pos + 8) = some c2) (hlow : isLow c2 = true) :
    scanstring_loop o s bgn pos acc (fuel + 1) =
      scanstring_loop o s bgn (pos + 12) (acc ++ [joinSurrogates c1 c2]) fuel := by
  have hfs : findSpecial s pos = pos := findSpecial_at hpos (by simp [isSpecial, hbs])
  simp only [scanstring_loop, hfs]
  rw [if_neg (by simp [hbs]), if_neg (by simp [hbs, hpos]), slice_self,
    List.append_nil, if_neg (by simp [hbs]), if_neg (by omega : ¬ pos + 1 = s.length),
    hu, if_neg (by simp : ¬ (117 : Nat) ≠ 117)]
  simp only [show pos + 1 + 1 = pos + 2 from rfl, show pos + 1 + 1 + 4 = pos + 6 from rfl]
  rw [if_neg (by omega : ¬ pos + 6 > s.length), h4]
  simp only [hhigh, if_true, show pos + 6 + 2 = pos + 8 from rfl,
    show pos + 6 + 1 = pos + 7 from rfl, show pos + 6 + 6 = pos + 12 from rfl]
  rw [if_pos (⟨hlen2, h92, h117⟩ : pos + 8 < s.length ∧ _ ∧ _),
    if_neg (by omega : ¬ pos + 12 > s.length), h4b]
  simp only [hlow, if_true]

/-- A high surrogate not followed by a `\u` escape with `allow_surrogates`
disabled: "Surrogates are not allowed" over the offending escape. -/
theorem scan_esc_u_lone_high (o : ScanOpts) (s : Text) (bgn pos : Nat) (acc : Text)
    (fuel c1 : Nat)
    (hpos : pos < s.length) (hbs : rd s pos = 92) (hu : rd s (pos + 1) = 117)
    (hlen : pos + 6 ≤ s.length) (h4 : hex4 s (pos + 2) = some c1)
    (hhigh : isHigh c1 = true)
    (hnof : ¬ (pos + 8 < s.length ∧ rd s (pos + 6) = 92 ∧ rd s (pos + 7) = 117))
    (hallow : o.allow_surrogates = false) :
    scanstring_loop o s bgn pos acc (fuel + 1) =
      .err ⟨"Surrogates are not allowed", pos, ((pos + 6 : Nat) : Int)⟩ := by
  have hfs : findSpecial s pos = pos := findSpecial_at hpos (by simp [isSpecial, hbs])
  simp only [scanstring_loop, hfs]
  rw [if_neg (by simp [hbs]), if_neg (by simp [hbs, hpos]), slice_self,
    List.append_nil, if_neg (by simp [hbs]), if_neg (by omega : ¬ pos + 1 = s.length),
    hu, if_neg (by simp : ¬ (117 : Nat) ≠ 117)]
  simp only [show pos + 1 + 1 = pos + 2 from rfl, show pos + 1 + 1 + 4 = pos + 6 from rfl]
  rw [if_neg (by omega : ¬ pos + 6 > s.length), h4]
  simp only [hhigh, if_true, show pos + 6 + 2 = pos + 8 from rfl,
    show pos + 6 + 1 = pos + 7 from rfl]
  rw [if_neg hnof, if_pos (by simp [hallow]), show pos + 6 - 6 = pos from by omega]

/-- A high surrogate followed by a `\uYYYY` that is not a low surrogate,
with `allow_surrogates` disabled. -/
theorem scan_esc_u_high_notlow (o : ScanOpts) (s : Text) (bgn pos : Nat) (acc : Text)
    (fuel c1 c2 : Nat)
    (hpos : pos < s.length) (hbs : rd s pos = 92) (hu : rd s (pos + 1) = 117)
    (h4 : hex4 s (pos + 2) = some c1) (hhigh : isHigh c1 = true)
    (h92 : rd s (pos + 6) = 92) (h117 : rd s (pos + 7) = 117)
    (hlen2 : pos + 8 < s.length) (hlen6 : pos + 12 ≤ s.length)
    (h4b : hex4 s (pos + 8) = some c2) (hnlow : isLow c2 = false)
    (hallow : o.allow_surrogates = false) :
    scanstring_loop o s bgn pos acc (fuel + 1) =
      .err ⟨"Surrogates are not allowed", pos, ((pos + 6 : Nat) : Int)⟩ := by
  have hfs : findSpecial s pos = pos := findSpecial_at hpos (by simp [isSpecial, hbs])
  simp only [scanstring_loop, hfs]
  rw [if_neg (by simp [hbs]), if_neg (by simp [hbs, hpos]), slice_self,
    List.append_nil, if_neg (by simp [hbs]), if_neg (by omega : ¬ pos + 1 = s.length),
    hu, if_neg (by simp : ¬ (117 : Nat) ≠ 117)]
  simp only [show pos + 1 + 1 = pos + 2 from rfl, show pos + 1 + 1 + 4 = pos + 6 from rfl]
  rw [if_neg (by omega : ¬ pos + 6 > s.length), h4]
  simp only [hhigh, if_true, show pos + 6 + 2 = pos + 8 from rfl,
    show pos + 6 + 1 = pos + 7 from rfl, show pos + 6 + 6 = pos + 12 from rfl]
  rw [if_pos (⟨hlen2, h92, h117⟩ : pos + 8 < s.length ∧ _ ∧ _),
    if_neg (by omega : ¬ pos + 12 > s.length), h4b]
  simp only [hnlow, Bool.false_eq_true, if_false]
  rw [if_pos (by simp [hallow]), show pos + 6 - 6 = pos from by omega]

/-- A lone low-surrogate `\uXXXX` with `allow_surrogates` disabled. -/
theorem scan_esc_u_lone_low (o : ScanOpts) (s : Text) (bgn pos : Nat) (acc : Text)
    (fuel c1 : Nat)
    (hpos : pos < s.length) (hbs : rd s pos = 92) (hu : rd s (pos + 1) = 117)
    (hlen : pos + 6 ≤ s.length) (h4 : hex4 s (pos + 2) = some c1)
    (hlow : isLow c1 = true) (hallow : o.allow_surrogates = false) :
    scanstring_loop o s bgn pos acc (fuel + 1) =
      .err ⟨"Surrogates are not allowed", pos, ((pos + 6 : Nat) : Int)⟩ := by
  have hfs : findSpecial s pos = pos := findSpecial_at hpos (by simp [isSpecial, hbs])
  simp only [scanstring_loop, hfs]
  rw [if_neg (by simp [hbs]), if_neg (by simp [hbs, hpos]), slice_self,
    List.append_nil, if_neg (by simp [hbs]), if_neg (by omega : ¬ pos + 1 = s.length),
    hu, if_neg (by simp : ¬ (117 : Nat) ≠ 117)]
  simp only [show pos + 1 + 1 = pos + 2 from rfl, show pos + 1 + 1 + 4 = pos + 6 from rfl]
  rw [if_neg (by omega : ¬ pos + 6 > s.length), h4]
  simp only [isLow_not_isHigh hlow, Bool.false_eq_true, if_false]
  rw [if_pos (⟨hlow, by simp [hallow]⟩ : isLow c1 = true ∧ _),
    show pos + 6 - 6 = pos from by omega]

/-- C6.  During string unescape: decoding a `\uXXXX` high surrogate followed
by a `\uYYYY` low surrogate combines the two into the single supplementary
code point; with `allow_surrogates` disabled, an unpaired high surrogate
(no following `\u` escape, or a following `\uYYYY` that is not a low
surrogate) and a lone low surrogate all raise "Surrogates are not allowed"
over the offending `\uXXXX`. -/
theorem claimC6_surrogates :
    (∀ (o : ScanOpts) (s : Text) (bgn pos : Nat) (acc : Text) (fuel c1 c2 : Nat),
      pos < s.length → rd s pos = 92 → rd s (pos + 1) = 117 →
      hex4 s (pos + 2) = some c1 → isHigh c1 = true →
      rd s (pos + 6) = 92 → rd s (pos + 7) = 117 →
      pos + 8 < s.length → pos + 12 ≤ s.length →
      hex4 s (pos + 8) = some c2 → isLow c2 = true →
      scanstring_loop o s bgn pos acc (fuel + 1) =
        scanstring_loop o s bgn (pos + 12) (acc ++ [joinSurrogates c1 c2]) fuel) ∧
    (∀ (o : ScanOpts) (s : Text) (bgn pos : Nat) (acc : Text) (fuel c1 : Nat),
      pos < s.length → rd s pos = 92 → rd s (pos + 1) = 117 →
      pos + 6 ≤ s.length → hex4 s (pos + 2) = some c1 → isHigh c1 = true →
      ¬ (pos + 8 < s.length ∧ rd s (pos + 6) = 92 ∧ rd s (pos + 7) = 117) →
      o.allow_surrogates = false →
      scanstring_loop o s bgn pos acc (fuel + 1) =
        .err ⟨"Surrogates are not allowed", pos, ((pos + 6 : Nat) : Int)⟩) ∧
    (∀ (o : ScanOpts) (s : Text) (bgn pos : Nat) (acc : Text) (fuel c1 c2 : Nat),
      pos < s.length → rd s pos = 92 → rd s (pos + 1) = 117 →
      hex4 s (pos + 2) = some c1 → isHigh c1 = true →
      rd s (pos + 6) = 92 → rd s (pos + 7) = 117 →
      pos + 8 < s.length → pos + 12 ≤ s.length →
      hex4 s (pos + 8) = some c2 → isLow c2 = false →
      o.allow_surrogates = false →
      scanstring_loop o s bgn pos acc (fuel + 1) =
        .err ⟨"Surrogates are not allowed", pos, ((pos + 6 : Nat) : Int)⟩) ∧
    (∀ (o : ScanOpts) (s : Text) (bgn pos : Nat) (acc : Text) (fuel c1 : Nat),
      pos < s.length → rd s pos = 92 → rd s (pos + 1) = 117 →
      pos + 6 ≤ s.length → hex4 s (pos + 2) = some c1 → isLow c1 = true →
      o.allow_surrogates = false →
      scanstring_loop o s bgn pos acc (fuel + 1) =
        .err ⟨"Surrogates are not allowed", pos, ((pos + 6 : Nat) : Int)⟩) := by
  refine ⟨?_, ?_, ?_, ?_⟩
  · intro o s bgn pos acc fuel c1 c2 h1 h2 h3 h4 h5 h6 h7 h8 h9 h10 h11
    exact scan_esc_u_pair o s bgn pos acc fuel c1 c2 h1 h2 h3 h4 h5 h6 h7 h8 h9 h10 h11
  · intro o s bgn pos acc fuel c1 h1 h2 h3 h4 h5 h6 h7 h8
    exact scan_esc_u_lone_high o s bgn pos acc fuel c1 h1 h2 h3 h4 h5 h6 h7 h8
  · intro o s bgn pos acc fuel c1 c2 h1 h2 h3 h4 h5 h6 h7 h8 h9 h10 h11 h12
    exact scan_esc_u_high_notlow o s bgn pos acc fuel c1 c2 h1 h2 h3 h4 h5 h6 h7 h8 h9
      h10 h11 h12
  · intro o s bgn pos acc fuel c1 h1 h2 h3 h4 h5 h6 h7
    exact scan_esc_u_lone_low o s bgn pos acc fuel c1 h1 h2 h3 h4 h5 h6 h7

theorem claimC6_witness :
    scanstring_loop plainOpts [92, 117, 68, 56, 51, 52, 92, 117, 68, 68, 49, 69, 34]
        0 0 [] 9 =
      scanstring_loop plainOpts [92, 117, 68, 56, 51, 52, 92, 117, 68, 68, 49, 69, 34]
        0 12 [joinSurrogates 0xD834 0xDD1E] 8 ∧
    scanstring_loop plainOpts [92, 117, 68, 56, 51, 52, 34] 0 0 [] 9 =
      .err ⟨"Surrogates are not allowed", 0, (6 : Int)⟩ ∧
    scanstring_loop plainOpts [92, 117, 68, 56, 51, 52, 92, 117, 48, 48, 52, 49, 34]
        0 0 [] 9 =
      .err ⟨"Surrogates are not allowed", 0, (6 : Int)⟩ ∧
    scanstring_loop plainOpts [92, 117, 68, 67, 48, 48, 34] 0 0 [] 9 =
      .err ⟨"Surrogates are not allowed", 0, (6 : Int)⟩ := by
  refine ⟨?_, ?_, ?_, ?_⟩
  · have h := claimC6_surrogates.1 plainOpts
      [92, 117, 68, 56, 51, 52, 92, 117, 68, 68, 49, 69, 34] 0 0 [] 8 0xD834 0xDD1E
      (by decide) (by decide) (by decide) (by decide) (by decide) (by decide)
      (by decide) (by decide) (by decide) (by decide) (by decide)
    simpa using h
  · have h := claimC6_surrogates.2.1 plainOpts [92, 117, 68, 56, 51, 52, 34] 0 0 [] 8
      0xD834 (by decide) (by decide) (by decide) (by decide) (by decide) (by decide)
      (by decide) (by decide)
    simpa using h
  · have h := claimC6_surrogates.2.2.1 plainOpts
      [92, 117, 68, 56, 51, 52, 92, 117, 48, 48, 52, 49, 34] 0 0 [] 8 0xD834 0x41
      (by decide) (by decide) (by decide) (by decide) (by decide) (by decide)
      (by decide) (by decide) (by decide) (by decide) (by decide) (by decide)
    simpa using h
  · have h := claimC6_surrogates.2.2.2 plainOpts [92, 117, 68, 67, 48, 48, 34] 0 0 [] 8
      0xDC00 (by decide) (by decide) (by decide) (by decide) (by decide) (by decide)
      (by decide)
    simpa using h

/-! ### C1: the ascii escape round-trips through the string scanner -/

theorem escCharA_total (allow : Bool) (c : Nat) (h : ¬ (0xD800 ≤ c ∧ c ≤ 0xDFFF)) :
    ∃ e, escCharA allow c = some e := by
  unfold escCharA
  by_cases h1 : sChar c = true
  · rw [if_pos h1]; exact ⟨_, rfl⟩
  rw [if_neg h1]
  by_cases h2 : c = 92 ∨ c = 34
  · rw [if_pos h2]; exact ⟨_, rfl⟩
  rw [if_neg h2]
  by_cases h3 : c = 8
  · rw [if_pos h3]; exact ⟨_, rfl⟩
  rw [if_neg h3]
  by_cases h4 : c = 12
  · rw [if_pos h4]; exact ⟨_, rfl⟩
  rw [if_neg h4]
  by_cases h5 : c = 10
  · rw [if_pos h5]; exact ⟨_, rfl⟩
  rw [if_neg h5]
  by_cases h6 : c = 13
  · rw [if_pos h6]; exact ⟨_, rfl⟩
  rw [if_neg h6]
  by_cases h7 : c = 9
  · rw [if_pos h7]; exact ⟨_, rfl⟩
  rw [if_neg h7]
  by_cases h8 : 0x10000 ≤ c
  · rw [if_pos h8]; exact ⟨_, rfl⟩
  rw [if_neg h8, if_neg (fun hx => h ⟨hx.1, hx.2.1⟩)]
  exact ⟨_, rfl⟩

theorem escListA_total (allow : Bool) :
    ∀ s : Text, (∀ c ∈ s, ¬ (0xD800 ≤ c ∧ c ≤ 0xDFFF)) →
      ∃ out, escListA allow s = some out := by
  intro s
  induction s with
  | nil => intro _; exact ⟨[], rfl⟩
  | cons c t ih =>
    intro h
    obtain ⟨e, he⟩ := escCharA_total allow c (h c (by simp))
    obtain ⟨r, hre⟩ := ih (fun x hx => h x (by simp [hx]))
    exact ⟨e ++ r, by simp only [escListA, he, hre]⟩

theorem hexDig_lt {n : Nat} (h : n < 16) : hexDig n < 128 := by
  unfold hexDig
  split <;> omega

theorem uEsc_ascii (v : Nat) : ∀ x ∈ uEsc v, x < 128 := by
  intro x hx
  simp [uEsc] at hx
  rcases hx with h | h | h | h | h | h <;> subst h
  · omega
  · omega
  · exact hexDig_lt (by omega)
  · exact hexDig_lt (by omega)
  · exact hexDig_lt (by omega)
  · exact hexDig_lt (by omega)

theorem escCharA_ascii (allow : Bool) (c : Nat) (e : Text)
    (he : escCharA allow c = some e) : ∀ x ∈ e, x < 128 := by
  unfold escCharA at he
  by_cases h1 : sChar c = true
  · rw [if_pos h1] at he
    cases he
    intro x hx
    simp at hx
    have hs : 32 ≤ c ∧ c ≤ 126 ∧ c ≠ 92 ∧ c ≠ 34 := by simpa [sChar] using h1
    omega
  rw [if_neg h1] at he
  by_cases h2 : c = 92 ∨ c = 34
  · rw [if_pos h2] at he
    cases he
    intro x hx
    simp at hx
    rcases hx with h | h <;> rcases h2 with h9 | h9 <;> omega
  rw [if_neg h2] at he
  by_cases h3 : c = 8
  · rw [if_pos h3] at he
    cases he
    intro x hx
    simp at hx
    rcases hx with h | h <;> omega
  rw [if_neg h3] at he
  by_cases h4 : c = 12
  · rw [if_pos h4] at he
    cases he
    intro x hx
    simp at hx
    rcases hx with h | h <;> omega
  rw [if_neg h4] at he
  by_cases h5 : c = 10
  · rw [if_pos h5] at he
    cases he
    intro x hx
    simp at hx
    rcases hx with h | h <;> omega
  rw [if_neg h5] at he
  by_cases h6 : c = 13
  · rw [if_pos h6] at he
    cases he
    intro x hx
    simp at hx
    rcases hx with h | h <;> omega
  rw [if_neg h6] at he
  by_cases h7 : c = 9
  · rw [if_pos h7] at he
    cases he
    intro x hx
    simp at hx
    rcases hx with h | h <;> omega
  rw [if_neg h7] at he
  by_cases h8 : 0x10000 ≤ c
  · rw [if_pos h8] at he
    cases he
    intro x hx
    rcases List.mem_append.mp hx with h | h
    · exact uEsc_ascii _ x h
    · exact uEsc_ascii _ x h
  rw [if_neg h8] at he
  by_cases h9 : 0xD800 ≤ c ∧ c ≤ 0xDFFF ∧ ¬ allow
  · rw [if_pos h9] at he
    cases he
  rw [if_neg h9] at he
  cases he
  exact uEsc_ascii c

theorem escListA_ascii (allow : Bool) :
    ∀ (s out : Text), escListA allow s = some out → ∀ x ∈ out, x < 128 := by
  intro s
  induction s with
  | nil =>
    intro out h
    simp only [escListA] at h
    cases h
    intro x hx
    simp at hx
  | cons c t ih =>
    intro out h
    simp only [escListA] at h
    cases he : escCharA allow c with
    | none =>
      simp only [he] at h
      exact Option.noConfusion h
    | some e =>
      simp only [he] at h
      cases hr : escListA allow t with
      | none =>
        simp only [hr] at h
        exact Option.noConfusion h
      | some r =>
        simp only [hr] at h
        cases h
        intro x hx
        rcases List.mem_append.mp hx with hxe | hxr
        · exact escCharA_ascii allow c e he x hxe
        · exact ih r hr x hxr

theorem escSizeA_pos (c : Nat) : 1 ≤ escSizeA c := by
  unfold escSizeA
  split
  · omega
  split
  · omega
  split <;> omega

theorem sum_escSizeA_ge (s : Text) : s.length ≤ (s.map escSizeA).sum := by
  induction s with
  | nil => simp
  | cons c t ih =>
    simp only [List.map_cons, List.sum_cons, List.length_cons]
    have := escSizeA_pos c
    omega

/-- The borrow fast path fires only when every character is a passthrough
`S_CHAR`: the sizing pass charges more than one output unit to anything
else. -/
theorem sum_escSizeA_eq_sChar : ∀ s : Text, (s.map escSizeA).sum = s.length →
    ∀ c ∈ s, sChar c = true := by
  intro s
  induction s with
  | nil => intro _ c hc; simp at hc
  | cons c t ih =>
    intro h
    simp only [List.map_cons, List.sum_cons, List.length_cons] at h
    have h1 := sum_escSizeA_ge t
    have h2 := escSizeA_pos c
    have hc1 : escSizeA c = 1 := by omega
    have ht : (t.map escSizeA).sum = t.length := by omega
    intro x hx
    rcases List.mem_cons.mp hx with h0 | hxt
    · subst h0
      by_contra hs
      unfold escSizeA at hc1
      rw [if_neg hs] at hc1
      by_cases hq : x = 92 ∨ x = 34 ∨ x = 8 ∨ x = 12 ∨ x = 10 ∨ x = 13 ∨ x = 9
      · rw [if_pos hq] at hc1; omega
      rw [if_neg hq] at hc1
      by_cases hq2 : 0x10000 ≤ x
      · rw [if_pos hq2] at hc1; omega
      rw [if_neg hq2] at hc1; omega
    · exact ih ht x hxt

/-- Round-trip step for a two-character backslash escape. -/
theorem rt_esc2_step (o : ScanOpts) (P acc r cs : Text) (bgn f c ec : Nat)
    (hev : (ec = 34 ∧ c = 34) ∨ (ec = 92 ∧ c = 92) ∨ (ec = 47 ∧ c = 47) ∨
      (ec = 98 ∧ c = 8) ∨ (ec = 102 ∧ c = 12) ∨ (ec = 110 ∧ c = 10) ∨
      (ec = 114 ∧ c = 13) ∨ (ec = 116 ∧ c = 9))
    (hrest : scanstring_loop o ((P ++ [92, ec]) ++ (r ++ [34])) bgn
        (P ++ [92, ec]).length (acc ++ [c]) f =
      .ok (acc ++ [c] ++ cs, (P ++ [92, ec]).length + r.length + 1)) :
    scanstring_loop o (P ++ (([92, ec] ++ r) ++ [34])) bgn P.length acc (f + 1) =
      .ok (acc ++ (c :: cs), P.length + ([92, ec] ++ r).length + 1) := by
  have hseq : P ++ (([92, ec] ++ r) ++ [34]) = P ++ ([92, ec] ++ (r ++ [34])) := by simp
  rw [hseq]
  have h92 : rd (P ++ ([92, ec] ++ (r ++ [34]))) P.length = 92 := by
    have h := rd_pref P [92, ec] (r ++ [34]) 0 (by simp)
    simpa using h
  have hch : rd (P ++ ([92, ec] ++ (r ++ [34]))) (P.length + 1) = ec := by
    have h := rd_pref P [92, ec] (r ++ [34]) 1 (by simp)
    simpa using h
  have hp : P.length < (P ++ ([92, ec] ++ (r ++ [34]))).length := by simp
  have hp1 : P.length + 1 < (P ++ ([92, ec] ++ (r ++ [34]))).length := by
    simp only [List.length_append, List.length_cons, List.length_nil]
    omega
  rw [scan_esc_single o _ bgn P.length acc f ec c hp h92 hp1 hch hev]
  have hseq2 : P ++ ([92, ec] ++ (r ++ [34])) = (P ++ [92, ec]) ++ (r ++ [34]) := by simp
  have hl2 : P.length + 2 = (P ++ [92, ec]).length := by simp
  rw [hseq2, hl2, hrest]
  have h1 : acc ++ [c] ++ cs = acc ++ (c :: cs) := by simp
  have h2 : (P ++ [92, ec]).length + r.length + 1 =
      P.length + ([92, ec] ++ r).length + 1 := by
    simp only [List.length_append, List.length_cons, List.length_nil]
    omega
  rw [h1, h2]

/-- Round-trip step for a `\uXXXX` escape of a non-surrogate BMP value. -/
theorem rt_escU_step (o : ScanOpts) (P acc r cs : Text) (bgn f c : Nat)
    (hc : c < 0x10000) (hnh : isHigh c = false) (hnl : isLow c = false)
    (hrest : scanstring_loop o ((P ++ uEsc c) ++ (r ++ [34])) bgn
        (P ++ uEsc c).length (acc ++ [c]) f =
      .ok (acc ++ [c] ++ cs, (P ++ uEsc c).length + r.length + 1)) :
    scanstring_loop o (P ++ ((uEsc c ++ r) ++ [34])) bgn P.length acc (f + 1) =
      .ok (acc ++ (c :: cs), P.length + (uEsc c ++ r).length + 1) := by
  have hseq : P ++ ((uEsc c ++ r) ++ [34]) = P ++ (uEsc c ++ (r ++ [34])) := by simp
  rw [hseq]
  have h92 : rd (P ++ (uEsc c ++ (r ++ [34]))) P.length = 92 := by
    have h := rd_pref P (uEsc c) (r ++ [34]) 0 (by simp [uEsc])
    rw [show rd (uEsc c) 0 = 92 from rfl] at h
    simpa using h
  have h117 : rd (P ++ (uEsc c ++ (r ++ [34]))) (P.length + 1) = 117 := by
    have h := rd_pref P (uEsc c) (r ++ [34]) 1 (by simp [uEsc])
    rw [show rd (uEsc c) 1 = 117 from rfl] at h
    exact h
  have hp : P.length < (P ++ (uEsc c ++ (r ++ [34]))).length := by simp [uEsc]
  have hlen : P.length + 6 ≤ (P ++ (uEsc c ++ (r ++ [34]))).length := by
    simp only [List.length_append, uEsc, List.length_cons, List.length_nil]
    omega
  have h4 : hex4 (P ++ (uEsc c ++ (r ++ [34]))) (P.length + 2) = some c :=
    hex4_uEsc P (r ++ [34]) c hc
  rw [scan_esc_u_bmp o _ bgn P.length acc f c hp h92 h117 hlen h4 hnh hnl]
  have hseq2 : P ++ (uEsc c ++ (r ++ [34])) = (P ++ uEsc c) ++ (r ++ [34]) := by simp
  have hl6 : P.length + 6 = (P ++ uEsc c).length := by
    simp only [List.length_append, uEsc, List.length_cons, List.length_nil]
  rw [hseq2, hl6, hrest]
  have h1 : acc ++ [c] ++ cs = acc ++ (c :: cs) := by simp
  have h2 : (P ++ uEsc c).length + r.length + 1 =
      P.length + (uEsc c ++ r).length + 1 := by
    simp only [List.length_append, uEsc, List.length_cons, List.length_nil]
    omega
  rw [h1, h2]

/-- Round-trip step for a surrogate-pair escape of a supplementary value. -/
theorem rt_escPair_step (o : ScanOpts) (P acc r cs : Text) (bgn f H L c : Nat)
    (hH : H < 0x10000) (hL : L < 0x10000)
    (hHh : isHigh H = true) (hLl : isLow L = true)
    (hj : joinSurrogates H L = c)
    (hrest : scanstring_loop o ((P ++ (uEsc H ++ uEsc L)) ++ (r ++ [34])) bgn
        (P ++ (uEsc H ++ uEsc L)).length (acc ++ [c]) f =
      .ok (acc ++ [c] ++ cs, (P ++ (uEsc H ++ uEsc L)).length + r.length + 1)) :
    scanstring_loop o (P ++ (((uEsc H ++ uEsc L) ++ r) ++ [34])) bgn P.length acc
        (f + 1) =
      .ok (acc ++ (c :: cs), P.length + ((uEsc H ++ uEsc L) ++ r).length + 1) := by
  have hseq : P ++ (((uEsc H ++ uEsc L) ++ r) ++ [34]) =
      P ++ (uEsc H ++ (uEsc L ++ (r ++ [34]))) := by simp
  rw [hseq]
  have hS12 : P ++ (uEsc H ++ (uEsc L ++ (r ++ [34]))) =
      (P ++ uEsc H) ++ (uEsc L ++ (r ++ [34])) := by simp
  have hl6 : (P ++ uEsc H).length = P.length + 6 := by
    simp only [List.length_append, uEsc, List.length_cons, List.length_nil]
  have h92 : rd (P ++ (uEsc H ++ (uEsc L ++ (r ++ [34])))) P.length = 92 := by
    have h := rd_pref P (uEsc H) (uEsc L ++ (r ++ [34])) 0 (by simp [uEsc])
    rw [show rd (uEsc H) 0 = 92 from rfl] at h
    simpa using h
  have h117 : rd (P ++ (uEsc H ++ (uEsc L ++ (r ++ [34])))) (P.length + 1) = 117 := by
    have h := rd_pref P (uEsc H) (uEsc L ++ (r ++ [34])) 1 (by simp [uEsc])
    rw [show rd (uEsc H) 1 = 117 from rfl] at h
    exact h
  have h4a : hex4 (P ++ (uEsc H ++ (uEsc L ++ (r ++ [34])))) (P.length + 2) = some H :=
    hex4_uEsc P (uEsc L ++ (r ++ [34])) H hH
  have h92b : rd (P ++ (uEsc H ++ (uEsc L ++ (r ++ [34])))) (P.length + 6) = 92 := by
    have h := rd_pref (P ++ uEsc H) (uEsc L) (r ++ [34]) 0 (by simp [uEsc])
    rw [show rd (uEsc L) 0 = 92 from rfl, hl6, ← hS12] at h
    simpa using h
  have h117b : rd (P ++ (uEsc H ++ (uEsc L ++ (r ++ [34])))) (P.length + 7) = 117 := by
    have h := rd_pref (P ++ uEsc H) (uEsc L) (r ++ [34]) 1 (by simp [uEsc])
    rw [show rd (uEsc L) 1 = 117 from rfl, hl6, ← hS12] at h
    simpa using h
  have h4b : hex4 (P ++ (uEsc H ++ (uEsc L ++ (r ++ [34])))) (P.length + 8) = some L := by
    have h := hex4_uEsc (P ++ uEsc H) (r ++ [34]) L hL
    rw [hl6, ← hS12] at h
    simpa using h
  have hp : P.length < (P ++ (uEsc H ++ (uEsc L ++ (r ++ [34])))).length := by
    simp [uEsc]
  have hlen2 : P.length + 8 < (P ++ (uEsc H ++ (uEsc L ++ (r ++ [34])))).length := by
    simp only [List.length_append, uEsc, List.length_cons, List.length_nil]
    omega
  have hlen6 : P.length + 12 ≤ (P ++ (uEsc H ++ (uEsc L ++ (r ++ [34])))).length := by
    simp only [List.length_append, uEsc, List.length_cons, List.length_nil]
    omega
  rw [scan_esc_u_pair o _ bgn P.length acc f H L hp h92 h117 h4a hHh h92b h117b
    hlen2 hlen6 h4b hLl, hj]
  have hseq2 : P ++ (uEsc H ++ (uEsc L ++ (r ++ [34]))) =
      (P ++ (uEsc H ++ uEsc L)) ++ (r ++ [34]) := by simp
  have hl12 : P.length + 12 = (P ++ (uEsc H ++ uEsc L)).length := by
    simp only [List.length_append, uEsc, List.length_cons, List.length_nil]
  rw [hseq2, hl12, hrest]
  have h1 : acc ++ [c] ++ cs = acc ++ (c :: cs) := by simp
  have h2 : (P ++ (uEsc H ++ uEsc L)).length + r.length + 1 =
      P.length + ((uEsc H ++ uEsc L) ++ r).length + 1 := by
    simp only [List.length_append, uEsc, List.length_cons, List.length_nil]
    omega
  rw [h1, h2]

/-- The round-trip induction: scanning the ascii escape of `cs` placed after
any prefix `P` (with the closing quote appended) decodes exactly `cs` and
stops right after the quote. -/
theorem rt_escaped (o : ScanOpts) (allow : Bool) :
    ∀ (cs P acc : Text) (bgn fuel : Nat) (out : Text),
      (∀ c ∈ cs, c < 0x110000 ∧ ¬ (0xD800 ≤ c ∧ c ≤ 0xDFFF)) →
      cs.length < fuel →
      escListA allow cs = some out →
      scanstring_loop o (P ++ (out ++ [34])) bgn P.length acc fuel =
        .ok (acc ++ cs, P.length + out.length + 1) := by
  intro cs
  induction cs with
  | nil =>
    intro P acc bgn fuel out hval hfuel hout
    obtain ⟨f, rfl⟩ : ∃ f, fuel = f + 1 := ⟨fuel - 1, by omega⟩
    simp only [escListA] at hout
    cases hout
    have hq : rd (P ++ (([] : Text) ++ [34])) P.length = 34 := by
      have h := rd_append P ([] ++ [34]) 0
      rw [show rd (([] : Text) ++ [34]) 0 = 34 from rfl] at h
      simpa using h
    have hlen : P.length < (P ++ (([] : Text) ++ [34])).length := by simp
    rw [scan_quote o (P ++ ([] ++ [34])) bgn P.length acc f hlen hq]
    simp
  | cons c cs ih =>
    intro P acc bgn fuel out hval hfuel hout
    have hc := hval c (by simp)
    have hvcs : ∀ x ∈ cs, x < 0x110000 ∧ ¬ (0xD800 ≤ x ∧ x ≤ 0xDFFF) :=
      fun x hx => hval x (by simp [hx])
    simp only [escListA] at hout
    cases he : escCharA allow c with
    | none =>
      simp only [he] at hout
      exact Option.noConfusion hout
    | some e =>
      simp only [he] at hout
      cases hr : escListA allow cs with
      | none =>
        simp only [hr] at hout
        exact Option.noConfusion hout
      | some r =>
        simp only [hr] at hout
        cases hout
        unfold escCharA at he
        by_cases h1 : sChar c = true
        · rw [if_pos h1] at he
          cases he
          have hsc : 32 ≤ c ∧ c ≤ 126 ∧ c ≠ 92 ∧ c ≠ 34 := by simpa [sChar] using h1
          have hseq : P ++ (([c] ++ r) ++ [34]) = P ++ ([c] ++ (r ++ [34])) := by simp
          rw [hseq]
          have hrd : rd (P ++ ([c] ++ (r ++ [34]))) P.length = c := by
            have h := rd_pref P [c] (r ++ [34]) 0 (by simp)
            simpa using h
          have hlt : P.length < (P ++ ([c] ++ (r ++ [34]))).length := by simp
          have hns : isSpecial (rd (P ++ ([c] ++ (r ++ [34]))) P.length) = false := by
            rw [hrd]
            simp [isSpecial]
            omega
          rw [scan_lit o (P ++ ([c] ++ (r ++ [34]))) bgn P.length acc fuel hlt hns, hrd]
          have hseq2 : P ++ ([c] ++ (r ++ [34])) = (P ++ [c]) ++ (r ++ [34]) := by simp
          have hl1 : P.length + 1 = (P ++ [c]).length := by simp
          rw [hseq2, hl1,
            ih (P ++ [c]) (acc ++ [c]) bgn fuel r hvcs (by simp at hfuel; omega) hr]
          have he1 : acc ++ [c] ++ cs = acc ++ (c :: cs) := by simp
          have he2 : (P ++ [c]).length + r.length + 1 =
              P.length + ([c] ++ r).length + 1 := by
            simp only [List.length_append, List.length_cons, List.length_nil]
            omega
          rw [he1, he2]
        rw [if_neg h1] at he
        by_cases h2 : c = 92 ∨ c = 34
        · rw [if_pos h2] at he
          cases he
          obtain ⟨f, rfl⟩ : ∃ f, fuel = f + 1 := ⟨fuel - 1, by simp at hfuel; omega⟩
          exact rt_esc2_step o P acc r cs bgn f c c
            (by rcases h2 with h | h <;> subst h <;> decide)
            (ih (P ++ [92, c]) (acc ++ [c]) bgn f r hvcs (by simp at hfuel; omega) hr)
        rw [if_neg h2] at he
        by_cases h3 : c = 8
        · rw [if_pos h3] at he
          cases he
          subst h3
          obtain ⟨f, rfl⟩ : ∃ f, fuel = f + 1 := ⟨fuel - 1, by simp at hfuel; omega⟩
          exact rt_esc2_step o P acc r cs bgn f 8 98 (by decide)
            (ih (P ++ [92, 98]) (acc ++ [8]) bgn f r hvcs (by simp at hfuel; omega) hr)
        rw [if_neg h3] at he
        by_cases h4 : c = 12
        · rw [if_pos h4] at he
          cases he
          subst h4
          obtain ⟨f, rfl⟩ : ∃ f, fuel = f + 1 := ⟨fuel - 1, by simp at hfuel; omega⟩
          exact rt_esc2_step o P acc r cs bgn f 12 102 (by decide)
            (ih (P ++ [92, 102]) (acc ++ [12]) bgn f r hvcs (by simp at hfuel; omega) hr)
        rw [if_neg h4] at he
        by_cases h5 : c = 10
        · rw [if_pos h5] at he
          cases he
          subst h5
          obtain ⟨f, rfl⟩ : ∃ f, fuel = f + 1 := ⟨fuel - 1, by simp at hfuel; omega⟩
          exact rt_esc2_step o P acc r cs bgn f 10 110 (by decide)
            (ih (P ++ [92, 110]) (acc ++ [10]) bgn f r hvcs (by simp at hfuel; omega) hr)
        rw [if_neg h5] at he
        by_cases h6 : c = 13
        · rw [if_pos h6] at he
          cases he
          subst h6
          obtain ⟨f, rfl⟩ : ∃ f, fuel = f + 1 := ⟨fuel - 1, by simp at hfuel; omega⟩
          exact rt_esc2_step o P acc r cs bgn f 13 114 (by decide)
            (ih (P ++ [92, 114]) (acc ++ [13]) bgn f r hvcs (by simp at hfuel; omega) hr)
        rw [if_neg h6] at he
        by_cases h7 : c = 9
        · rw [if_pos h7] at he
          cases he
          subst h7
          obtain ⟨f, rfl⟩ : ∃ f, fuel = f + 1 := ⟨fuel - 1, by simp at hfuel; omega⟩
          exact rt_esc2_step o P acc r cs bgn f 9 116 (by decide)
            (ih (P ++ [92, 116]) (acc ++ [9]) bgn f r hvcs (by simp at hfuel; omega) hr)
        rw [if_neg h7] at he
        by_cases h8 : 0x10000 ≤ c
        · rw [if_pos h8] at he
          cases he
          obtain ⟨f, rfl⟩ : ∃ f, fuel = f + 1 := ⟨fuel - 1, by simp at hfuel; omega⟩
          have hH : highSurrogate c < 0x10000 := by unfold highSurrogate; omega
          have hL : lowSurrogate c < 0x10000 := by unfold lowSurrogate; omega
          have hHh : isHigh (highSurrogate c) = true := by
            simp [isHigh, highSurrogate]
            omega
          have hLl : isLow (lowSurrogate c) = true := by
            simp [isLow, lowSurrogate]
            omega
          have hj : joinSurrogates (highSurrogate c) (lowSurrogate c) = c := by
            unfold joinSurrogates highSurrogate lowSurrogate
            omega
          exact rt_escPair_step o P acc r cs bgn f (highSurrogate c) (lowSurrogate c) c
            hH hL hHh hLl hj
            (ih (P ++ (uEsc (highSurrogate c) ++ uEsc (lowSurrogate c))) (acc ++ [c])
              bgn f r hvcs (by simp at hfuel; omega) hr)
        rw [if_neg h8, if_neg (fun hx => hc.2 ⟨hx.1, hx.2.1⟩)] at he
        cases he
        obtain ⟨f, rfl⟩ : ∃ f, fuel = f + 1 := ⟨fuel - 1, by simp at hfuel; omega⟩
        have hnh : isHigh c = false := by
          simp [isHigh]
          omega
        have hnl : isLow c = false := by
          simp [isLow]
          omega
        exact rt_escU_step o P acc r cs bgn f c (by omega) hnh hnl
          (ih (P ++ uEsc c) (acc ++ [c]) bgn f r hvcs (by simp at hfuel; omega) hr)

/-- C1.  For every text without lone surrogates the ascii escape succeeds,
its output is pure ASCII, and scanning that output as a JSON string literal
(from just after the opening quote) decodes back the original text. -/
theorem claimC1_ascii_roundtrip (s : Text) (allow : Bool)
    (hval : ∀ c ∈ s, c < 0x110000 ∧ ¬ (0xD800 ≤ c ∧ c ≤ 0xDFFF)) :
    ∃ out, ascii_escape s allow = some out ∧ (∀ x ∈ out, x < 128) ∧
      ∀ (o : ScanOpts) (fuel : Nat), s.length < fuel →
        scanstring o (34 :: (out ++ [34])) 1 fuel = .ok (s, out.length + 2) := by
  have key : ∃ out, ascii_escape s allow = some out ∧ escListA allow s = some out := by
    unfold ascii_escape
    by_cases hfast : (s.map escSizeA).sum = s.length
    · rw [if_pos hfast]
      exact ⟨s, rfl, escListA_all_sChar allow s (sum_escSizeA_eq_sChar s hfast)⟩
    · rw [if_neg hfast]
      obtain ⟨out, hout⟩ := escListA_total allow s (fun c hcm => (hval c hcm).2)
      exact ⟨out, hout, hout⟩
  obtain ⟨out, hA, hL⟩ := key
  refine ⟨out, hA, escListA_ascii allow s out hL, ?_⟩
  intro o fuel hfuel
  unfold scanstring
  rw [if_neg (by simp only [List.length_cons]; omega :
    ¬ 1 > (34 :: (out ++ [34])).length)]
  have h := rt_escaped o allow s [34] [] 0 fuel out hval hfuel hL
  rw [show (List.length ([34] : Text) + out.length + 1) = out.length + 2 from by
    simp only [List.length_cons, List.length_nil]; omega] at h
  rw [show (([] : Text) ++ s) = s from List.nil_append s] at h
  exact h

theorem claimC1_witness :
    (∀ c ∈ ([104, 10, 119070] : Text), c < 0x110000 ∧ ¬ (0xD800 ≤ c ∧ c ≤ 0xDFFF)) ∧
    (∃ out, ascii_escape [104, 10, 119070] false = some out ∧ (∀ x ∈ out, x < 128) ∧
      ∀ (o : ScanOpts) (fuel : Nat), ([104, 10, 119070] : Text).length < fuel →
        scanstring o (34 :: (out ++ [34])) 1 fuel = .ok ([104, 10, 119070], out.length + 2)) :=
  ⟨by decide, claimC1_ascii_roundtrip [104, 10, 119070] false (by decide)⟩

/-! ### C7: duplicate object keys (`_accelerator.c` `_parse_object_unicode`
660-701 and `PyDuplicateKeyType` 39-48) -/

/-- A key of the dict under construction: a plain `str` (the first
occurrence of a text, interned through the memo, which returns an equal
text) or a `_jsonyx.DuplicateKey`, whose `tp_hash` is the object's own
address (`duplicatekey_hash`, 39-41), modelled as a fresh identity
number. -/
inductive KeyEntry where
  | plain : Text → KeyEntry
  | dup : Text → Nat → KeyEntry
deriving Repr, DecidableEq

/-- Dict key equivalence: plain strs collide by text (value hash and
equality); a `DuplicateKey` hashes by identity, so it collides with nothing
but itself. -/
def keyEq : KeyEntry → KeyEntry → Bool
  | .plain a, .plain b => a = b
  | .dup _ i, .dup _ j => i = j
  | _, _ => false

/-- `PyDict_Contains(rval, key)` for a plain str key (668). -/
def containsPlain (m : List (KeyEntry × JVal)) (k : Text) : Bool :=
  m.any (fun e => keyEq e.1 (.plain k))

/-- `PyDict_SetItem` (701): replace the value under an equivalent key, else
append. -/
def dictSet (m : List (KeyEntry × JVal)) (ke : KeyEntry) (v : JVal) :
    List (KeyEntry × JVal) :=
  if m.any (fun e => keyEq e.1 ke) then
    m.map (fun e => if keyEq e.1 ke then (e.1, v) else e)
  else m ++ [(ke, v)]

/-- Lines 668-678: classify one parsed key against the object built so far:
not contained — keep it plain; contained and duplicates forbidden — the
diagnostic; contained and allowed — wrap in a fresh `DuplicateKey`. -/
def procKey (allow_dup : Bool) (m : List (KeyEntry × JVal)) (nid : Nat) (k : Text) :
    Except String KeyEntry :=
  if ¬ containsPlain m k then .ok (.plain k)
  else if ¬ allow_dup then .error "Duplicate keys are not allowed"
  else .ok (.dup k nid)

/-- The key/value fold of `_parse_object_unicode`: each parsed pair in
order, the key through `procKey`, the value stored with `PyDict_SetItem`. -/
def processKeys (allow_dup : Bool) :
    List (Text × JVal) → List (KeyEntry × JVal) → Nat →
      Except String (List (KeyEntry × JVal))
  | [], m, _ => .ok m
  | (k, v) :: rest, m, nid =>
    match procKey allow_dup m nid k with
    | .error e => .error e
    | .ok ke => processKeys allow_dup rest (dictSet m ke v) (nid + 1)

/-- The text carried by a dict key. -/
def keyText : KeyEntry → Text
  | .plain t => t
  | .dup t _ => t

/-- The texts present as plain keys. -/
def plainTexts (m : List (KeyEntry × JVal)) : List Text :=
  m.filterMap (fun e => match e.1 with | .plain t => some t | .dup _ _ => none)

/-- Reference tagging of a key list, following the spec: the first
occurrence of a text stays plain, every later occurrence is wrapped with a
fresh identity. -/
def tagKeys : List (Text × JVal) → List Text → Nat → List (KeyEntry × JVal)
  | [], _, _ => []
  | (k, v) :: rest, seen, nid =>
    if k ∈ seen then (KeyEntry.dup k nid, v) :: tagKeys rest seen (nid + 1)
    else (KeyEntry.plain k, v) :: tagKeys rest (seen ++ [k]) (nid + 1)

theorem containsPlain_iff : ∀ (m : List (KeyEntry × JVal)) (k : Text),
    containsPlain m k = true ↔ k ∈ plainTexts m := by
  intro m
  induction m with
  | nil => intro k; simp [containsPlain, plainTexts]
  | cons e t ih =>
    intro k
    obtain ⟨ke, v⟩ := e
    cases ke with
    | plain a =>
      constructor
      · intro h
        simp only [containsPlain, List.any_cons, Bool.or_eq_true] at h
        rcases h with h | h
        · simp only [keyEq, decide_eq_true_eq] at h
          subst h
          simp [plainTexts]
        · have h2 := (ih k).mp h
          simp only [plainTexts, List.filterMap_cons]
          exact List.mem_cons_of_mem a h2
      · intro h
        simp only [plainTexts, List.filterMap_cons] at h
        rcases List.mem_cons.mp h with h | h
        · subst h
          simp only [containsPlain, List.any_cons, Bool.or_eq_true]
          left
          simp [keyEq]
        · simp only [containsPlain, List.any_cons, Bool.or_eq_true]
          right
          exact (ih k).mpr h
    | dup a i =>
      constructor
      · intro h
        simp only [containsPlain, List.any_cons, Bool.or_eq_true] at h
        rcases h with h | h
        · simp [keyEq] at h
        · have h2 := (ih k).mp h
          simp only [plainTexts, List.filterMap_cons]
          exact h2
      · intro h
        simp only [plainTexts, List.filterMap_cons] at h
        simp only [containsPlain, List.any_cons, Bool.or_eq_true]
        right
        exact (ih k).mpr h

theorem plainTexts_append_plain (m : List (KeyEntry × JVal)) (k : Text) (v : JVal) :
    plainTexts (m ++ [(KeyEntry.plain k, v)]) = plainTexts m ++ [k] := by
  simp [plainTexts]

theorem plainTexts_append_dup (m : List (KeyEntry × JVal)) (k : Text) (i : Nat)
    (v : JVal) : plainTexts (m ++ [(KeyEntry.dup k i, v)]) = plainTexts m := by
  simp [plainTexts]

theorem dictSet_append (m : List (KeyEntry × JVal)) (ke : KeyEntry) (v : JVal)
    (h : m.any (fun e => keyEq e.1 ke) = false) : dictSet m ke v = m ++ [(ke, v)] := by
  unfold dictSet
  rw [if_neg (by simp [h])]

theorem containsPlain_mono (m m2 : List (KeyEntry × JVal)) (k : Text)
    (h : containsPlain (m ++ m2) k = false) : containsPlain m k = false := by
  simp only [containsPlain, List.any_append, Bool.or_eq_false_iff] at h
  exact h.1

/-- A fresh `DuplicateKey` identity collides with nothing in the dict. -/
theorem any_dup_fresh (m : List (KeyEntry × JVal)) (k : Text) (nid : Nat)
    (hids : ∀ e ∈ m, ∀ t i, e.1 = KeyEntry.dup t i → i < nid) :
    m.any (fun e => keyEq e.1 (.dup k nid)) = false := by
  induction m with
  | nil => rfl
  | cons e t ih =>
    simp only [List.any_cons, Bool.or_eq_false_iff]
    refine ⟨?_, ih (fun x hx => hids x (by simp [hx]))⟩
    obtain ⟨ke, v⟩ := e
    cases ke with
    | plain a => rfl
    | dup a i =>
      have hlt := hids (KeyEntry.dup a i, v) (by simp) a i rfl
      simp only [keyEq, decide_eq_false_iff_not]
      omega

/-- With duplicates allowed the fold never fails and produces exactly the
reference tagging of the remaining keys. -/
theorem processKeys_true : ∀ (kvs : List (Text × JVal)) (m : List (KeyEntry × JVal))
    (nid : Nat), (∀ e ∈ m, ∀ t i, e.1 = KeyEntry.dup t i → i < nid) →
    processKeys true kvs m nid = .ok (m ++ tagKeys kvs (plainTexts m) nid) := by
  intro kvs
  induction kvs with
  | nil => intro m nid _; simp [processKeys, tagKeys]
  | cons p rest ih =>
    obtain ⟨k, v⟩ := p
    intro m nid hids
    cases hc : containsPlain m k with
    | true =>
      have hmem : k ∈ plainTexts m := (containsPlain_iff m k).mp hc
      have hpk : procKey true m nid k = .ok (.dup k nid) := by
        unfold procKey
        rw [if_neg (not_not_intro hc), if_neg (by simp)]
      simp only [processKeys, hpk]
      rw [dictSet_append m _ v (any_dup_fresh m k nid hids),
        ih (m ++ [(KeyEntry.dup k nid, v)]) (nid + 1) ?newinv]
      case newinv =>
        intro e he t i hei
        rcases List.mem_append.mp he with h | h
        · exact Nat.lt_trans (hids e h t i hei) (Nat.lt_succ_self nid)
        · simp only [List.mem_singleton] at h
          subst h
          injection hei with h1 h2
          omega
      rw [plainTexts_append_dup]
      rw [show tagKeys ((k, v) :: rest) (plainTexts m) nid =
        (KeyEntry.dup k nid, v) :: tagKeys rest (plainTexts m) (nid + 1) from by
          simp only [tagKeys]
          rw [if_pos hmem]]
      simp
    | false =>
      have hnm : ¬ k ∈ plainTexts m := fun hm => by
        rw [(containsPlain_iff m k).mpr hm] at hc
        exact Bool.noConfusion hc
      have hpk : procKey true m nid k = .ok (.plain k) := by
        unfold procKey
        rw [if_pos (by simp [hc])]
      simp only [processKeys, hpk]
      rw [dictSet_append m _ v hc,
        ih (m ++ [(KeyEntry.plain k, v)]) (nid + 1) ?newinv2]
      case newinv2 =>
        intro e he t i hei
        rcases List.mem_append.mp he with h | h
        · exact Nat.lt_trans (hids e h t i hei) (Nat.lt_succ_self nid)
        · simp only [List.mem_singleton] at h
          subst h
          exact absurd hei (by simp)
      rw [plainTexts_append_plain]
      rw [show tagKeys ((k, v) :: rest) (plainTexts m) nid =
        (KeyEntry.plain k, v) :: tagKeys rest (plainTexts m ++ [k]) (nid + 1) from by
          simp only [tagKeys]
          rw [if_neg hnm]]
      simp

/-- With duplicates forbidden, success forces pairwise-distinct key texts
(and none already present). -/
theorem processKeys_false_ok : ∀ (kvs : List (Text × JVal))
    (m : List (KeyEntry × JVal)) (nid : Nat) (res : List (KeyEntry × JVal)),
    processKeys false kvs m nid = .ok res →
    (kvs.map Prod.fst).Nodup ∧ ∀ k ∈ kvs.map Prod.fst, containsPlain m k = false := by
  intro kvs
  induction kvs with
  | nil => intro m nid res _; simp
  | cons p rest ih =>
    obtain ⟨k, v⟩ := p
    intro m nid res h
    simp only [processKeys] at h
    cases hpk : procKey false m nid k with
    | error e =>
      simp only [hpk] at h
      exact Except.noConfusion h
    | ok ke =>
      simp only [hpk] at h
      have hcp : containsPlain m k = false ∧ ke = KeyEntry.plain k := by
        unfold procKey at hpk
        by_cases hcc : containsPlain m k = true
        · rw [if_neg (not_not_intro hcc), if_pos (by simp)] at hpk
          exact Except.noConfusion hpk
        · rw [if_pos hcc] at hpk
          refine ⟨by simpa using hcc, ?_⟩
          injection hpk with h1
          exact h1.symm
      obtain ⟨hcf, rfl⟩ := hcp
      rw [dictSet_append m _ v hcf] at h
      obtain ⟨hnd, hnin⟩ := ih (m ++ [(KeyEntry.plain k, v)]) (nid + 1) res h
      constructor
      · simp only [List.map_cons]
        rw [List.nodup_cons]
        refine ⟨?_, hnd⟩
        intro hkmem
        have hfalse := hnin k hkmem
        have hmem : k ∈ plainTexts (m ++ [(KeyEntry.plain k, v)]) := by
          rw [plainTexts_append_plain]
          simp
        rw [(containsPlain_iff _ k).mpr hmem] at hfalse
        exact Bool.noConfusion hfalse
      · intro k2 hk2
        simp only [List.map_cons, List.mem_cons] at hk2
        rcases hk2 with rfl | hk2
        · exact hcf
        · exact containsPlain_mono m _ k2 (hnin k2 hk2)

/-- The fold has a single diagnostic. -/
theorem processKeys_err_msg : ∀ (kvs : List (Text × JVal))
    (m : List (KeyEntry × JVal)) (nid : Nat) (a : Bool) (e : String),
    processKeys a kvs m nid = .error e → e = "Duplicate keys are not allowed" := by
  intro kvs
  induction kvs with
  | nil => intro m nid a e h; exact Except.noConfusion h
  | cons p rest ih =>
    obtain ⟨k, v⟩ := p
    intro m nid a e h
    simp only [processKeys] at h
    cases hpk : procKey a m nid k with
    | error e2 =>
      simp only [hpk] at h
      have he2 : e2 = "Duplicate keys are not allowed" := by
        unfold procKey at hpk
        by_cases hcc : containsPlain m k = true
        · rw [if_neg (not_not_intro hcc)] at hpk
          cases a with
          | true =>
            rw [if_neg (by simp)] at hpk
            exact Except.noConfusion hpk
          | false =>
            rw [if_pos (by simp)] at hpk
            injection hpk with h1
            exact h1.symm
        · rw [if_pos hcc] at hpk
          exact Except.noConfusion hpk
      injection h with h1
      rw [← h1]
      exact he2
    | ok ke =>
      simp only [hpk] at h
      exact ih _ _ a e h

theorem tagKeys_map_text : ∀ (kvs : List (Text × JVal)) (seen : List Text) (nid : Nat),
    (tagKeys kvs seen nid).map (fun e => (keyText e.1, e.2)) = kvs := by
  intro kvs
  induction kvs with
  | nil => intro seen nid; rfl
  | cons p rest ih =>
    obtain ⟨k, v⟩ := p
    intro seen nid
    simp only [tagKeys]
    by_cases hk : k ∈ seen
    · rw [if_pos hk]
      rw [List.map_cons, ih]
      rfl
    · rw [if_neg hk]
      rw [List.map_cons, ih]
      rfl

theorem tagKeys_plain_notin : ∀ (kvs : List (Text × JVal)) (seen : List Text)
    (nid : Nat) (t : Text) (v : JVal),
    (KeyEntry.plain t, v) ∈ tagKeys kvs seen nid → ¬ t ∈ seen := by
  intro kvs
  induction kvs with
  | nil => intro seen nid t v h; simp [tagKeys] at h
  | cons p rest ih =>
    obtain ⟨k, v2⟩ := p
    intro seen nid t v h
    simp only [tagKeys] at h
    by_cases hk : k ∈ seen
    · rw [if_pos hk] at h
      rcases List.mem_cons.mp h with h | h
      · simp at h
      · exact ih seen (nid + 1) t v h
    · rw [if_neg hk] at h
      rcases List.mem_cons.mp h with h | h
      · have htk : t = k := by
          simp only [Prod.mk.injEq, KeyEntry.plain.injEq] at h
          exact h.1
        subst htk
        exact hk
      · have h2 := ih (seen ++ [k]) (nid + 1) t v h
        intro hts
        exact h2 (by simp [hts])

theorem tagKeys_dup_ge : ∀ (kvs : List (Text × JVal)) (seen : List Text)
    (nid : Nat) (t : Text) (i : Nat) (v : JVal),
    (KeyEntry.dup t i, v) ∈ tagKeys kvs seen nid → nid ≤ i := by
  intro kvs
  induction kvs with
  | nil => intro seen nid t i v h; simp [tagKeys] at h
  | cons p rest ih =>
    obtain ⟨k, v2⟩ := p
    intro seen nid t i v h
    simp only [tagKeys] at h
    by_cases hk : k ∈ seen
    · rw [if_pos hk] at h
      rcases List.mem_cons.mp h with h | h
      · injection h with h1 h2
        injection h1 with h3 h4
        omega
      · have := ih seen (nid + 1) t i v h
        omega
    · rw [if_neg hk] at h
      rcases List.mem_cons.mp h with h | h
      · simp at h
      · have := ih (seen ++ [k]) (nid + 1) t i v h
        omega

/-- All dict keys produced by the tagging are pairwise non-colliding: every
occurrence coexists. -/
theorem tagKeys_pairwise : ∀ (kvs : List (Text × JVal)) (seen : List Text) (nid : Nat),
    List.Pairwise (fun a b => keyEq a.1 b.1 = false) (tagKeys kvs seen nid) := by
  intro kvs
  induction kvs with
  | nil => intro seen nid; exact List.Pairwise.nil
  | cons p rest ih =>
    obtain ⟨k, v⟩ := p
    intro seen nid
    simp only [tagKeys]
    by_cases hk : k ∈ seen
    · rw [if_pos hk]
      refine List.Pairwise.cons ?_ (ih seen (nid + 1))
      intro b hb
      obtain ⟨kb, vb⟩ := b
      cases kb with
      | plain t => rfl
      | dup t i =>
        have := tagKeys_dup_ge rest seen (nid + 1) t i vb hb
        simp only [keyEq, decide_eq_false_iff_not]
        omega
    · rw [if_neg hk]
      refine List.Pairwise.cons ?_ (ih (seen ++ [k]) (nid + 1))
      intro b hb
      obtain ⟨kb, vb⟩ := b
      cases kb with
      | dup t i => rfl
      | plain t =>
        have hnot := tagKeys_plain_notin rest (seen ++ [k]) (nid + 1) t vb hb
        have htk : ¬ k = t := fun hkt => hnot (by simp [hkt.symm])
        simp only [keyEq, decide_eq_false_iff_not]
        exact htk

/-- C7.  Folding the parsed key/value pairs of one object: when
`allow_duplicate_keys` is false, any repeated key text fails with
"Duplicate keys are not allowed"; when it is true, the fold succeeds and
returns exactly the reference tagging (first occurrence a plain key, every
later occurrence wrapped in an identity-hashed `DuplicateKey`), whose keys
carry all the original occurrences with their values and are pairwise
non-colliding, so all occurrences coexist in the mapping. -/
theorem claimC7_duplicate_keys :
    (∀ kvs : List (Text × JVal), ¬ (kvs.map Prod.fst).Nodup →
      processKeys false kvs [] 0 = .error "Duplicate keys are not allowed") ∧
    (∀ kvs : List (Text × JVal),
      processKeys true kvs [] 0 = .ok (tagKeys kvs [] 0) ∧
      (tagKeys kvs [] 0).map (fun e => (keyText e.1, e.2)) = kvs ∧
      List.Pairwise (fun a b => keyEq a.1 b.1 = false) (tagKeys kvs [] 0)) := by
  constructor
  · intro kvs hdup
    cases hres : processKeys false kvs [] 0 with
    | ok res => exact absurd (processKeys_false_ok kvs [] 0 res hres).1 hdup
    | error e => rw [processKeys_err_msg kvs [] 0 false e hres]
  · intro kvs
    refine ⟨?_, tagKeys_map_text kvs [] 0, tagKeys_pairwise kvs [] 0⟩
    have h := processKeys_true kvs [] 0 (by intro e he t i _; simp at he)
    simpa [plainTexts] using h

theorem claimC7_witness :
    (¬ ((([([97], JVal.null), ([97], JVal.bool true)] :
        List (Text × JVal)).map Prod.fst).Nodup) ∧
      processKeys false [([97], JVal.null), ([97], JVal.bool true)] [] 0 =
        .error "Duplicate keys are not allowed") ∧
    (processKeys true [([97], JVal.null), ([97], JVal.bool true)] [] 0 =
        .ok (tagKeys [([97], JVal.null), ([97], JVal.bool true)] [] 0) ∧
      (tagKeys [([97], JVal.null), ([97], JVal.bool true)] [] 0).map
          (fun e => (keyText e.1, e.2)) = [([97], JVal.null), ([97], JVal.bool true)] ∧
      List.Pairwise (fun a b => keyEq a.1 b.1 = false)
        (tagKeys [([97], JVal.null), ([97], JVal.bool true)] [] 0)) :=
  ⟨⟨by decide, claimC7_duplicate_keys.1 _ (by decide)⟩, claimC7_duplicate_keys.2 _⟩

/-! ### C9: circular-reference markers of the encoder
(`_speedups.c` `encoder_encode` 1450-1499, `encoder_listencode_obj`
1623-1718, `encoder_listencode_mapping` 1884-2024,
`encoder_listencode_sequence` 2026-2147) -/

/-- A Python value on the encoder's heap, as far as the marker discipline
can see it: a scalar (`None`/bool/int/float/str, encoded without touching
the markers), a sequence, or a mapping whose item values are the listed
heap references (string keys are scalars and cannot recurse). -/
inductive HVal where
  | atom
  | arr : List Nat → HVal
  | obj : List Nat → HVal
deriving Repr, DecidableEq

/-- The child references of a heap node. -/
def children (h : List HVal) (r : Nat) : List Nat :=
  match h.getD r .atom with
  | .atom => []
  | .arr ch => ch
  | .obj ch => ch

/-- `r` directly contains `x`. -/
def Edge (h : List HVal) (r x : Nat) : Prop := x ∈ children h r

/-- Outcome of an encoder routine: the final marker set, a `ValueError`
message, or exhaustion of the modelling fuel (an artifact of the embedding,
distinct from every program outcome). -/
inductive MRes where
  | ok : Option (List Nat) → MRes
  | err : String → MRes
  | nofuel : MRes
deriving Repr, DecidableEq

/-- Lines 1895-1912 / 2038-2056: with markers present (`check_circular`),
look the container's identity up — a hit is the circular-reference error —
and otherwise insert it before descending. -/
def enterMarker : Option (List Nat) → Nat → MRes
  | none, _ => .ok none
  | some ms, r =>
    if r ∈ ms then .err "Unexpected circular reference" else .ok (some (r :: ms))

/-- Lines 2002-2004 / 2122-2124: on exit delete the container's identity
from the markers. -/
def exitMarker : Option (List Nat) → Nat → Option (List Nat)
  | none, _ => none
  | some ms, r => some (ms.erase r)

mutual

/-- The marker-relevant skeleton of `encoder_listencode_obj`: scalars leave
the markers alone; for a sequence or mapping, enter the marker (identity
lookup then insertion), encode the children left to right threading the
marker set, and delete the identity on exit.  Writer output, indentation
and separators do not touch the markers and are not modelled.  `fuel`
models the recursion budget (`_Py_EnterRecursiveCall`). -/
def encodeVal (h : List HVal) : Nat → Nat → Option (List Nat) → MRes
  | 0, _, _ => .nofuel
  | fuel + 1, r, m =>
    match h.getD r .atom with
    | .atom => .ok m
    | .arr ch =>
      match enterMarker m r with
      | .err e => .err e
      | .nofuel => .nofuel
      | .ok m1 =>
        match encodeList h fuel ch m1 with
        | .err e => .err e
        | .nofuel => .nofuel
        | .ok m3 => .ok (exitMarker m3 r)
    | .obj ch =>
      match enterMarker m r with
      | .err e => .err e
      | .nofuel => .nofuel
      | .ok m1 =>
        match encodeList h fuel ch m1 with
        | .err e => .err e
        | .nofuel => .nofuel
        | .ok m3 => .ok (exitMarker m3 r)
termination_by structural fuel r m => fuel

/-- The child loops of `encoder_listencode_mapping` (1972-2000) and
`encoder_listencode_sequence` (2104-2121): encode each child in order,
bailing out on the first failure. -/
def encodeList (h : List HVal) : Nat → List Nat → Option (List Nat) → MRes
  | 0, _, _ => .nofuel
  | _ + 1, [], m => .ok m
  | fuel + 1, x :: rest, m =>
    match encodeVal h fuel x m with
    | .err e => .err e
    | .nofuel => .nofuel
    | .ok m2 => encodeList h fuel rest m2
termination_by structural fuel l m => fuel

end

/-- `encoder_encode` (1469-1483): the marker dict is created fresh per call
when `check_circular` is set, else `Py_None` is passed. -/
def encoder_encode (check_circular : Bool) (h : List HVal) (fuel r : Nat) : MRes :=
  encodeVal h fuel r (if check_circular then some ([] : List Nat) else none)

theorem exit_enter (m : Option (List Nat)) (r : Nat) (m1 : Option (List Nat))
    (hent : enterMarker m r = .ok m1) : exitMarker m1 r = m := by
  cases m with
  | none =>
    simp only [enterMarker] at hent
    injection hent with h1
    subst h1
    rfl
  | some ms =>
    simp only [enterMarker] at hent
    by_cases hr : r ∈ ms
    · rw [if_pos hr] at hent
      exact MRes.noConfusion hent
    · rw [if_neg hr] at hent
      injection hent with h1
      subst h1
      simp [exitMarker]

/-- A successful encode returns the marker set it was given. -/
theorem enc_pres : ∀ fuel : Nat,
    (∀ (h : List HVal) (r : Nat) (m m' : Option (List Nat)),
      encodeVal h fuel r m = .ok m' → m' = m) ∧
    (∀ (h : List HVal) (l : List Nat) (m m' : Option (List Nat)),
      encodeList h fuel l m = .ok m' → m' = m) := by
  intro fuel
  induction fuel with
  | zero =>
    constructor
    · intro h r m m' hh
      exact MRes.noConfusion hh
    · intro h l m m' hh
      exact MRes.noConfusion hh
  | succ f ih =>
    obtain ⟨ihV, ihL⟩ := ih
    constructor
    · intro h r m m' hh
      cases hhp : h.getD r .atom with
      | atom =>
        simp only [encodeVal, hhp] at hh
        injection hh with h1
        exact h1.symm
      | arr ch =>
        simp only [encodeVal, hhp] at hh
        cases hent : enterMarker m r with
        | err e => simp only [hent] at hh; exact MRes.noConfusion hh
        | nofuel => simp only [hent] at hh; exact MRes.noConfusion hh
        | ok m1 =>
          simp only [hent] at hh
          cases hlst : encodeList h f ch m1 with
          | err e => simp only [hlst] at hh; exact MRes.noConfusion hh
          | nofuel => simp only [hlst] at hh; exact MRes.noConfusion hh
          | ok m3 =>
            simp only [hlst] at hh
            have hm3 : m3 = m1 := ihL h ch m1 m3 hlst
            subst hm3
            injection hh with h1
            rw [← h1]
            exact exit_enter m r m3 hent
      | obj ch =>
        simp only [encodeVal, hhp] at hh
        cases hent : enterMarker m r with
        | err e => simp only [hent] at hh; exact MRes.noConfusion hh
        | nofuel => simp only [hent] at hh; exact MRes.noConfusion hh
        | ok m1 =>
          simp only [hent] at hh
          cases hlst : encodeList h f ch m1 with
          | err e => simp only [hlst] at hh; exact MRes.noConfusion hh
          | nofuel => simp only [hlst] at hh; exact MRes.noConfusion hh
          | ok m3 =>
            simp only [hlst] at hh
            have hm3 : m3 = m1 := ihL h ch m1 m3 hlst
            subst hm3
            injection hh with h1
            rw [← h1]
            exact exit_enter m r m3 hent
    · intro h l m m' hh
      cases l with
      | nil =>
        simp only [encodeList] at hh
        injection hh with h1
        exact h1.symm
      | cons x rest =>
        simp only [encodeList] at hh
        cases hv : encodeVal h f x m with
        | err e => simp only [hv] at hh; exact MRes.noConfusion hh
        | nofuel => simp only [hv] at hh; exact MRes.noConfusion hh
        | ok m2 =>
          simp only [hv] at hh
          have h2 := ihV h x m m2 hv
          have h3 := ihL h rest m2 m' hh
          rw [h3, h2]

/-- If the child loop succeeds, each child was encoded successfully with
the same marker set (at some smaller fuel). -/
theorem encList_ok_mem : ∀ (l : List Nat) (f : Nat) (h : List HVal)
    (m m3 : Option (List Nat)), encodeList h f l m = .ok m3 →
    ∀ x ∈ l, ∃ g, g < f ∧ encodeVal h g x m = .ok m := by
  intro l
  induction l with
  | nil =>
    intro f h m m3 _ x hx
    simp at hx
  | cons y rest ihl =>
    intro f h m m3 hh x hx
    cases f with
    | zero => exact MRes.noConfusion hh
    | succ f2 =>
      simp only [encodeList] at hh
      cases hv : encodeVal h f2 y m with
      | err e => simp only [hv] at hh; exact MRes.noConfusion hh
      | nofuel => simp only [hv] at hh; exact MRes.noConfusion hh
      | ok m2 =>
        simp only [hv] at hh
        have hm2 : m2 = m := (enc_pres f2).1 h y m m2 hv
        subst hm2
        rcases List.mem_cons.mp hx with rfl | hx2
        · exact ⟨f2, by omega, hv⟩
        · obtain ⟨g, hg, hgv⟩ := ihl f2 h m2 m3 hh x hx2
          exact ⟨g, by omega, hgv⟩

/-- A value that contains itself, directly or transitively, never encodes
successfully while markers are present. -/
theorem enc_cycle : ∀ (fuel : Nat) (h : List HVal) (r : Nat) (ms : List Nat),
    Relation.TransGen (Edge h) r r →
    ∀ m' : Option (List Nat), encodeVal h fuel r (some ms) ≠ .ok m' := by
  intro fuel
  induction fuel using Nat.strong_induction_on with
  | _ fuel ih =>
    cases fuel with
    | zero =>
      intro h r ms _ m' hh
      exact MRes.noConfusion hh
    | succ f =>
      intro h r ms hcyc m' hh
      obtain ⟨x, hrx, hxr⟩ := Relation.TransGen.head'_iff.mp hcyc
      have hcycx : Relation.TransGen (Edge h) x x := Relation.TransGen.tail' hxr hrx
      cases hhp : h.getD r .atom with
      | atom =>
        have : x ∈ children h r := hrx
        rw [show children h r = [] from by unfold children; rw [hhp]] at this
        simp at this
      | arr ch =>
        have hch : x ∈ ch := by
          have : x ∈ children h r := hrx
          rwa [show children h r = ch from by unfold children; rw [hhp]] at this
        simp only [encodeVal, hhp] at hh
        by_cases hr : r ∈ ms
        · simp only [show enterMarker (some ms) r =
              .err "Unexpected circular reference" from by
            simp [enterMarker, hr]] at hh
          exact MRes.noConfusion hh
        · simp only [show enterMarker (some ms) r = .ok (some (r :: ms)) from by
            simp [enterMarker, hr]] at hh
          cases hlst : encodeList h f ch (some (r :: ms)) with
          | err e => simp only [hlst] at hh; exact MRes.noConfusion hh
          | nofuel => simp only [hlst] at hh; exact MRes.noConfusion hh
          | ok m3 =>
            obtain ⟨g, hg, hgv⟩ :=
              encList_ok_mem ch f h (some (r :: ms)) m3 hlst x hch
            exact ih g (by omega) h x (r :: ms) hcycx _ hgv
      | obj ch =>
        have hch : x ∈ ch := by
          have : x ∈ children h r := hrx
          rwa [show children h r = ch from by unfold children; rw [hhp]] at this
        simp only [encodeVal, hhp] at hh
        by_cases hr : r ∈ ms
        · simp only [show enterMarker (some ms) r =
              .err "Unexpected circular reference" from by
            simp [enterMarker, hr]] at hh
          exact MRes.noConfusion hh
        · simp only [show enterMarker (some ms) r = .ok (some (r :: ms)) from by
            simp [enterMarker, hr]] at hh
          cases hlst : encodeList h f ch (some (r :: ms)) with
          | err e => simp only [hlst] at hh; exact MRes.noConfusion hh
          | nofuel => simp only [hlst] at hh; exact MRes.noConfusion hh
          | ok m3 =>
            obtain ⟨g, hg, hgv⟩ :=
              encList_ok_mem ch f h (some (r :: ms)) m3 hlst x hch
            exact ih g (by omega) h x (r :: ms) hcycx _ hgv

/-- C9.  With `check_circular` markers present: a container's identity is
inserted before descending into its children and deleted on exit (first
conjunct: the unfolding of one container step); re-entering a container
whose identity is already marked fails with "Unexpected circular
reference"; every successful encode returns the marker set it was given —
so a full `encode` call, which creates the marker dict fresh and empty,
ends with it empty — and a value containing itself directly or
transitively never encodes successfully. -/
theorem claimC9_circular_markers :
    (∀ (h : List HVal) (fuel r : Nat) (ms ch : List Nat),
      ¬ r ∈ ms → (h.getD r .atom = .arr ch ∨ h.getD r .atom = .obj ch) →
      encodeVal h (fuel + 1) r (some ms) =
        match encodeList h fuel ch (some (r :: ms)) with
        | .err e => .err e
        | .nofuel => .nofuel
        | .ok m3 => .ok (exitMarker m3 r)) ∧
    (∀ (h : List HVal) (fuel r : Nat) (ms ch : List Nat),
      r ∈ ms → (h.getD r .atom = .arr ch ∨ h.getD r .atom = .obj ch) →
      encodeVal h (fuel + 1) r (some ms) = .err "Unexpected circular reference") ∧
    (∀ (h : List HVal) (fuel r : Nat) (m m' : Option (List Nat)),
      encodeVal h fuel r m = .ok m' → m' = m) ∧
    (∀ (h : List HVal) (fuel r : Nat) (m' : Option (List Nat)),
      encoder_encode true h fuel r = .ok m' → m' = some []) ∧
    (∀ (h : List HVal) (r : Nat), Relation.TransGen (Edge h) r r →
      ∀ (fuel : Nat) (ms : List Nat) (m' : Option (List Nat)),
        encodeVal h fuel r (some ms) ≠ .ok m') := by
  refine ⟨?_, ?_, ?_, ?_, ?_⟩
  · intro h fuel r ms ch hr hheap
    rcases hheap with hheap | hheap <;>
      simp only [encodeVal, hheap,
        show enterMarker (some ms) r = .ok (some (r :: ms)) from by
          simp [enterMarker, hr]]
  · intro h fuel r ms ch hr hheap
    rcases hheap with hheap | hheap <;>
      simp only [encodeVal, hheap,
        show enterMarker (some ms) r = .err "Unexpected circular reference" from by
          simp [enterMarker, hr]]
  · intro h fuel r m m' hh
    exact (enc_pres fuel).1 h r m m' hh
  · intro h fuel r m' hh
    exact (enc_pres fuel).1 h r (some []) m' hh
  · intro h r hcyc fuel ms m' hh
    exact enc_cycle fuel h r ms hcyc m' hh

theorem claimC9_witness :
    (¬ (0 : Nat) ∈ ([] : List Nat) ∧
      ([HVal.arr [0]].getD 0 .atom = .arr [0] ∨
        [HVal.arr [0]].getD 0 .atom = .obj [0]) ∧
      encodeVal [HVal.arr [0]] 4 0 (some []) =
        match encodeList [HVal.arr [0]] 3 [0] (some [0]) with
        | .err e => .err e
        | .nofuel => .nofuel
        | .ok m3 => .ok (exitMarker m3 0)) ∧
    ((0 : Nat) ∈ [0, 7] ∧
      encodeVal [HVal.arr [0]] 4 0 (some [0, 7]) =
        .err "Unexpected circular reference") ∧
    (encodeVal [HVal.arr [1], HVal.atom] 3 0 (some []) = .ok (some []) ∧
      some [] = some ([] : List Nat)) ∧
    (encoder_encode true [HVal.arr [1], HVal.atom] 3 0 = .ok (some []) ∧
      some [] = some ([] : List Nat)) ∧
    (Relation.TransGen (Edge [HVal.arr [0]]) 0 0 ∧
      encodeVal [HVal.arr [0]] 6 0 (some []) ≠ .ok (some [])) := by
  have hcyc : Relation.TransGen (Edge [HVal.arr [0]]) 0 0 :=
    Relation.TransGen.single (show (0 : Nat) ∈ children [HVal.arr [0]] 0 by decide)
  refine ⟨⟨by decide, Or.inl rfl, ?_⟩, ⟨by decide, ?_⟩, ⟨rfl, ?_⟩, ⟨rfl, ?_⟩,
    ⟨hcyc, ?_⟩⟩
  · exact claimC9_circular_markers.1 [HVal.arr [0]] 3 0 [] [0] (by decide) (Or.inl rfl)
  · exact claimC9_circular_markers.2.1 [HVal.arr [0]] 3 0 [0, 7] [0] (by decide)
      (Or.inl rfl)
  · exact claimC9_circular_markers.2.2.1 [HVal.arr [1], HVal.atom] 3 0 (some [])
      (some []) rfl
  · exact claimC9_circular_markers.2.2.2.1 [HVal.arr [1], HVal.atom] 3 0 (some []) rfl
  · exact claimC9_circular_markers.2.2.2.2 [HVal.arr [0]] 0 hcyc 6 [] (some [])

end Jsonyx

